import Mathlib

/-!
# Verification of the greedy voxel mesher (`src/geometry/greedymesh.rs`)

Shallow embedding of the meshing core of the VoxelGame repository and proofs
about it.  The Rust source is translated as follows:

* `(usize, usize, usize)` coordinate tuples become the `Face` structure;
* the `Vec<Vec<Vec<u8>>>` voxel grid becomes a total function on `Nat`
  coordinates (only in-range cells are ever read by the pass);
* a direction's slice `face_set[direction]` of the `FaceQueue` (a `u8` grid
  holding `0`/`1`) becomes the `Finset Face` of coordinates currently `1`;
* the `while` loops of `greedy_mesh` become structurally recursive functions
  consuming an explicit iteration budget (`fuel`); the wrappers supply
  `q.card + 1` fuel, which is proved sufficient because every iteration
  removes at least one queue cell;
* the `f32` vertex coordinates are small exact integers and are modelled as
  naturals; normals are integer triples.

All definitions are executable so that concrete chunks can be evaluated with
`decide`.
-/

set_option maxHeartbeats 1600000
set_option maxRecDepth 8192

namespace VoxelGame

/-- A voxel/face coordinate triple: the embedding of the `(usize, usize, usize)`
tuples used throughout `greedymesh.rs`. -/
structure Face where
  x : Nat
  y : Nat
  z : Nat
deriving DecidableEq

/-- Embedding of `struct Chunk`: a cubic grid of side `size`; `voxels x y z` is
the material id of a cell (`0` = empty, nonzero = solid). -/
structure Chunk where
  size : Nat
  voxels : Nat → Nat → Nat → Nat

/-- Embedding of `fn face_visible` (greedymesh.rs lines 64-104): whether the
face of the voxel at `face` pointing in `direction` (0 = right `+x`, 1 = left
`-x`, 2 = up `+y`, 3 = down `-y`, 4 = front `+z`, 5 = back `-z`) is not hidden
by a neighbouring voxel.  For a direction outside `0..=5` the Rust code panics
(`invalid direction`); the total function returns `false` there, and the
panic itself is modelled by `face_visibleP` below. -/
def face_visible (face : Face) (direction : Nat) (chunk : Chunk) : Bool :=
  if direction = 0 then
    if face.x = chunk.size - 1 then true
    else chunk.voxels (face.x + 1) face.y face.z == 0
  else if direction = 1 then
    if face.x = 0 then true
    else chunk.voxels (face.x - 1) face.y face.z == 0
  else if direction = 2 then
    if face.y = chunk.size - 1 then true
    else chunk.voxels face.x (face.y + 1) face.z == 0
  else if direction = 3 then
    if face.y = 0 then true
    else chunk.voxels face.x (face.y - 1) face.z == 0
  else if direction = 4 then
    if face.z = chunk.size - 1 then true
    else chunk.voxels face.x face.y (face.z + 1) == 0
  else if direction = 5 then
    if face.z = 0 then true
    else chunk.voxels face.x face.y (face.z - 1) == 0
  else
    false

/-- Embedding of `fn face_exists` (lines 112-127): whether the queued face still
exists.  `q` is the boolean grid `face_set[direction]`, modelled as the set of
coordinates currently holding `1`; any out-of-range coordinate yields `false`. -/
def face_exists (face : Face) (q : Finset Face) (chunk : Chunk) : Bool :=
  if chunk.size ≤ face.x || chunk.size ≤ face.y || chunk.size ≤ face.z then false
  else decide (face ∈ q)

/-- Embedding of `struct ExpandDirection` (lines 216-219): the two `[usize; 3]`
axis masks, reusing `Face` as a plain triple of naturals. -/
structure ExpandDirection where
  width : Face
  height : Face
deriving DecidableEq

/-- Embedding of `fn expand_direction` (lines 227-259).  The `_ => panic!` arm
is modelled by the all-zero masks (and by `expand_directionP` below). -/
def expand_direction (direction : Nat) : ExpandDirection :=
  match direction with
  | 0 => ⟨⟨0, 0, 1⟩, ⟨0, 1, 0⟩⟩
  | 1 => ⟨⟨0, 0, 1⟩, ⟨0, 1, 0⟩⟩
  | 2 => ⟨⟨1, 0, 0⟩, ⟨0, 0, 1⟩⟩
  | 3 => ⟨⟨1, 0, 0⟩, ⟨0, 0, 1⟩⟩
  | 4 => ⟨⟨1, 0, 0⟩, ⟨0, 1, 0⟩⟩
  | 5 => ⟨⟨1, 0, 0⟩, ⟨0, 1, 0⟩⟩
  | _ => ⟨⟨0, 0, 0⟩, ⟨0, 0, 0⟩⟩

/-- The cell `face + w·width_mask + h·height_mask`: the coordinate expression
built in `can_extend_row` (lines 151-155), in the width loop (lines 331-335,
with `h = 0`) and in the row-clearing loop (lines 359-361). -/
def wcell (face : Face) (ex : ExpandDirection) (w h : Nat) : Face :=
  ⟨face.x + ex.width.x * w + ex.height.x * h,
   face.y + ex.width.y * w + ex.height.y * h,
   face.z + ex.width.z * w + ex.height.z * h⟩

/-- Embedding of `fn can_extend_row` (lines 138-162): every one of the `width`
cells of the candidate row at `height` must still be queued and visible. -/
def can_extend_row (height width direction : Nat) (face : Face)
    (q : Finset Face) (chunk : Chunk) : Bool :=
  (List.range width).all fun w =>
    face_exists (wcell face (expand_direction direction) w height) q chunk &&
    face_visible (wcell face (expand_direction direction) w height) direction chunk

/-- Lexicographic order on coordinates (`x`, then `y`, then `z`): the scan
order of `FaceFinder::next_face`. -/
def lexLe (a b : Face) : Prop :=
  a.x < b.x ∨ (a.x = b.x ∧ (a.y < b.y ∨ (a.y = b.y ∧ a.z ≤ b.z)))

instance (a b : Face) : Decidable (lexLe a b) := by
  unfold lexLe; exact inferInstance

/-- Strict lexicographic order on coordinates. -/
def lexLt (a b : Face) : Prop :=
  a.x < b.x ∨ (a.x = b.x ∧ (a.y < b.y ∨ (a.y = b.y ∧ a.z < b.z)))

/-- All three coordinates of `f` lie inside a grid of side `c.size`. -/
def inRange (c : Chunk) (f : Face) : Prop :=
  f.x < c.size ∧ f.y < c.size ∧ f.z < c.size

instance (c : Chunk) (f : Face) : Decidable (inRange c f) := by
  unfold inRange; exact inferInstance

/-- All grid coordinates in `FaceFinder` scan order. -/
def lexFaces (n : Nat) : List Face :=
  (List.range n).flatMap fun x =>
    (List.range n).flatMap fun y =>
      (List.range n).map fun z => ⟨x, y, z⟩

/-- Embedding of `FaceFinder::next_face` (lines 185-213): scanning in
lexicographic order, resuming from the persistent cursor `start`, return the
first coordinate whose queue cell is still `1`.  The Rust method leaves the
cursor at the returned coordinate; callers of this function pass the returned
face as the next `start`. -/
def next_face (q : Finset Face) (chunk : Chunk) (start : Face) : Option Face :=
  ((lexFaces chunk.size).filter fun p => decide (lexLe start p)).find? fun p =>
    decide (p ∈ q)

/-- All in-range coordinates of a grid of side `n`, as a finite set. -/
def allFaces (n : Nat) : Finset Face :=
  ((Finset.range n) ×ˢ (Finset.range n) ×ˢ (Finset.range n)).image fun p =>
    ⟨p.1, p.2.1, p.2.2⟩

/-- Embedding of the queue-initialization loop of `greedy_mesh` (lines
270-291): the cells of `face_queue[d]` set to `1` are exactly the in-range
solid voxels whose face in direction `d` is visible. -/
def init_queue (chunk : Chunk) (d : Nat) : Finset Face :=
  (allFaces chunk.size).filter fun f =>
    chunk.voxels f.x f.y f.z ≠ 0 ∧ face_visible f d chunk = true

/-- Embedding of the width-expansion `while` loop of `greedy_mesh` (lines
330-349), recursing on an explicit iteration budget.  Each iteration erases
one queue cell, so `q.card + 1` fuel (supplied by `expand_width`) is enough. -/
def expand_width_go (chunk : Chunk) (d : Nat) (ex : ExpandDirection) (face : Face) :
    Nat → Finset Face → Nat → Nat × Finset Face
  | 0, q, width => (width, q)
  | fuel + 1, q, width =>
    let nf := wcell face ex width 0
    if face_exists nf q chunk && face_visible nf d chunk then
      expand_width_go chunk d ex face fuel (q.erase nf) (width + 1)
    else
      (width, q)

/-- The width-expansion loop with sufficient fuel. -/
def expand_width (chunk : Chunk) (d : Nat) (ex : ExpandDirection) (face : Face)
    (q : Finset Face) (width : Nat) : Nat × Finset Face :=
  expand_width_go chunk d ex face (q.card + 1) q width

/-- The candidate row of `width` cells at a given `height`: the cells cleared
by the `for w in 0..width` loop of `greedy_mesh` (lines 358-362). -/
def rowCells (face : Face) (ex : ExpandDirection) (width h : Nat) : Finset Face :=
  (Finset.range width).image fun w => wcell face ex w h

/-- Embedding of the height-expansion `while` loop of `greedy_mesh` (lines
354-365), recursing on an explicit iteration budget.  When `0 < width`, each
qualifying row erases at least one queue cell, so `q.card + 1` fuel is
enough. -/
def expand_height_go (chunk : Chunk) (d : Nat) (ex : ExpandDirection) (face : Face)
    (width : Nat) : Nat → Finset Face → Nat → Nat × Finset Face
  | 0, q, height => (height, q)
  | fuel + 1, q, height =>
    if can_extend_row height width d face q chunk then
      expand_height_go chunk d ex face width fuel
        (q \ rowCells face ex width height) (height + 1)
    else
      (height, q)

/-- The height-expansion loop with sufficient fuel. -/
def expand_height (chunk : Chunk) (d : Nat) (ex : ExpandDirection) (face : Face)
    (width : Nat) (q : Finset Face) (height : Nat) : Nat × Finset Face :=
  expand_height_go chunk d ex face width (q.card + 1) q height

/-- One emitted rectangle: the seed corner, the merged width and height, and
the direction, recorded at the emission point of `greedy_mesh` (line 367). -/
structure Quad where
  face : Face
  width : Nat
  height : Nat
  direction : Nat
deriving DecidableEq

/-- One iteration of the merge-loop body of `greedy_mesh` (lines 314-414) for a
seed `face` returned by the scan: the seed is unconditionally dequeued (line
319); if it passes the `face_visible` re-check (line 322) the rectangle is
expanded width-first then height-wise and a quad is emitted, otherwise nothing
else changes.  Returns the emitted quad (if any) and the updated queue. -/
def merge_face (chunk : Chunk) (d : Nat) (q : Finset Face) (face : Face) :
    Option Quad × Finset Face :=
  let q1 := q.erase face
  if face_visible face d chunk then
    let ex := expand_direction d
    let rw := expand_width chunk d ex face q1 1
    let rh := expand_height chunk d ex face rw.1 rw.2 1
    (some ⟨face, rw.1, rh.1, d⟩, rh.2)
  else
    (none, q1)

/-- Embedding of one direction's merge loop of `greedy_mesh` (lines 306-415),
recursing on an explicit iteration budget: each iteration dequeues its seed,
so `q.card + 1` fuel (supplied by `merge_direction`) is enough. -/
def merge_pass_go (chunk : Chunk) (d : Nat) : Nat → Finset Face → Face → List Quad
  | 0, _, _ => []
  | fuel + 1, q, cursor =>
    match next_face q chunk cursor with
    | none => []
    | some face =>
      let r := merge_face chunk d q face
      match r.1 with
      | some qd => qd :: merge_pass_go chunk d fuel r.2 face
      | none => merge_pass_go chunk d fuel r.2 face

/-- One direction's merge pass, started on the freshly initialized queue with
the scan cursor at the origin. -/
def merge_direction (chunk : Chunk) (d : Nat) : List Quad :=
  merge_pass_go chunk d ((init_queue chunk d).card + 1) (init_queue chunk d) ⟨0, 0, 0⟩

/-- The quads emitted by `greedy_mesh`, in emission order: the six directions
are processed in order `0, 1, 2, 3, 4, 5` (line 298). -/
def greedy_quads (chunk : Chunk) : List Quad :=
  merge_direction chunk 0 ++ merge_direction chunk 1 ++ merge_direction chunk 2 ++
  merge_direction chunk 3 ++ merge_direction chunk 4 ++ merge_direction chunk 5

/-- The per-direction boundary offset `extra_x/extra_y/extra_z` (lines
370-372): one unit along the normal axis for the positive directions. -/
def quad_extra (d : Nat) : Face :=
  ⟨if d = 0 then 1 else 0, if d = 2 then 1 else 0, if d = 4 then 1 else 0⟩

/-- Componentwise sum of two coordinate triples. -/
def faceAdd (a b : Face) : Face := ⟨a.x + b.x, a.y + b.y, a.z + b.z⟩

/-- The 4 vertices pushed for a quad (lines 374-393), in push order.  All
coordinates are small integers, so the Rust `f32` values are exact. -/
def quad_vertices (qd : Quad) : List Face :=
  let ex := expand_direction qd.direction
  let e := quad_extra qd.direction
  [faceAdd (wcell qd.face ex 0 0) e,
   faceAdd (wcell qd.face ex qd.width 0) e,
   faceAdd (wcell qd.face ex qd.width qd.height) e,
   faceAdd (wcell qd.face ex 0 qd.height) e]

/-- The value of a Rust `u32`: the silently wrapping `as u32` cast and `u32`
addition reduce modulo `2^32`. -/
def u32 (n : Nat) : Nat := n % 4294967296

/-- The 6 indices pushed for a quad (lines 395-402): the pattern
`[0, 1, 2, 2, 3, 0]`, reversed for directions 0, 2 and 5, then offset by the
position `base` of the quad's first vertex in the vertex buffer.  The buffer
is a `Vec<u32>` and the base is computed by the wrapping cast
`(vertices.len() - 4) as u32` (line 401), so each entry is reduced modulo
`2^32` (the `u32` addition itself cannot overflow, since the wrapped base is
a multiple of 4 and the pattern entries are at most 3). -/
def quad_indices (qd : Quad) (base : Nat) : List Nat :=
  let idx : List Nat := [0, 1, 2, 2, 3, 0]
  let idx := if qd.direction = 0 ∨ qd.direction = 2 ∨ qd.direction = 5
    then idx.reverse else idx
  idx.map (fun p => u32 (p + u32 base))

/-- The constant per-vertex normal of a direction (lines 404-413).  The
`_ => panic!` arm is modelled by the zero vector (and by `quad_normalP`
below). -/
def quad_normal (d : Nat) : Int × Int × Int :=
  match d with
  | 0 => (1, 0, 0)
  | 1 => (-1, 0, 0)
  | 2 => (0, 1, 0)
  | 3 => (0, -1, 0)
  | 4 => (0, 0, 1)
  | 5 => (0, 0, -1)
  | _ => (0, 0, 0)

/-- The three output buffers of `greedy_mesh` (lines 293-295). -/
structure MeshData where
  vertices : List Face
  indices : List Nat
  normals : List (Int × Int × Int)
deriving DecidableEq

/-- Appending one quad's vertices, indices and normals to the output buffers
(lines 374-414).  The index base `vertices.len() - 4` measured after the four
pushes equals the vertex count before them. -/
def mesh_push (m : MeshData) (qd : Quad) : MeshData :=
  { vertices := m.vertices ++ quad_vertices qd
    indices := m.indices ++ quad_indices qd m.vertices.length
    normals := m.normals ++ [quad_normal qd.direction, quad_normal qd.direction,
                             quad_normal qd.direction, quad_normal qd.direction] }

/-- Embedding of `fn greedy_mesh` (lines 265-430): initialize the queues, merge
each direction, and assemble the vertex/index/normal buffers in emission
order. -/
def greedy_mesh (chunk : Chunk) : MeshData :=
  (greedy_quads chunk).foldl mesh_push ⟨[], [], []⟩

/-- The `width × height` unit faces covered by a quad, as a list (used to state
exact-coverage properties: the list remembers multiplicity). -/
def quad_cells_list (qd : Quad) : List Face :=
  (List.range qd.width).flatMap fun w =>
    (List.range qd.height).map fun h =>
      wcell qd.face (expand_direction qd.direction) w h

/-- The rectangle of cells `face + w·width_mask + h·height_mask` for
`w1 ≤ w < w2`, `h1 ≤ h < h2`. -/
def cellsRect (face : Face) (ex : ExpandDirection) (w1 w2 h1 h2 : Nat) : Finset Face :=
  ((Finset.Ico w1 w2) ×ˢ (Finset.Ico h1 h2)).image fun p => wcell face ex p.1 p.2

/-- The set of `width × height` unit faces covered by a quad. -/
def quad_cells (qd : Quad) : Finset Face :=
  cellsRect qd.face (expand_direction qd.direction) 0 qd.width 0 qd.height

/-- The visibility policy as worded by the spec (§4.2), stated independently of
`face_visible`: the outward neighbour cell of `f` in direction `d` within a
grid of side `n`, or `none` when the face lies on the grid boundary in that
direction's outward sense. -/
def spec_neighbor (f : Face) (d : Nat) (n : Nat) : Option Face :=
  match d with
  | 0 => if f.x + 1 < n then some ⟨f.x + 1, f.y, f.z⟩ else none
  | 1 => if f.x = 0 then none else some ⟨f.x - 1, f.y, f.z⟩
  | 2 => if f.y + 1 < n then some ⟨f.x, f.y + 1, f.z⟩ else none
  | 3 => if f.y = 0 then none else some ⟨f.x, f.y - 1, f.z⟩
  | 4 => if f.z + 1 < n then some ⟨f.x, f.y, f.z + 1⟩ else none
  | 5 => if f.z = 0 then none else some ⟨f.x, f.y, f.z - 1⟩
  | _ => none

/-- The coordinate of a vertex along the axis normal to direction `d`. -/
def normal_axis_coord (d : Nat) (v : Face) : Nat :=
  if d = 0 ∨ d = 1 then v.x else if d = 2 ∨ d = 3 then v.y else v.z

/-- Difference `a - b` of two vertex positions, as an integer vector. -/
def esub (a b : Face) : Int × Int × Int :=
  ((a.x : Int) - (b.x : Int), (a.y : Int) - (b.y : Int), (a.z : Int) - (b.z : Int))

/-- Cross product of two integer vectors. -/
def cross (u v : Int × Int × Int) : Int × Int × Int :=
  (u.2.1 * v.2.2 - u.2.2 * v.2.1,
   u.2.2 * v.1 - u.1 * v.2.2,
   u.1 * v.2.1 - u.2.1 * v.1)

/-- Dot product of two integer vectors. -/
def dot3 (u v : Int × Int × Int) : Int :=
  u.1 * v.1 + u.2.1 * v.2.1 + u.2.2 * v.2.2

/-- Whether the `j`-th group of 6 indices of the buffers describes two
counter-clockwise triangles: for each of the two consecutive index triples,
the cross product of the triangle's edge vectors has positive dot product
with the per-vertex normal stored for the triangle's first vertex. -/
def tri_ccw (m : MeshData) (j : Nat) : Prop :=
  0 < dot3 (cross
      (esub (m.vertices.getD (m.indices.getD (6 * j + 1) 0) ⟨0, 0, 0⟩)
            (m.vertices.getD (m.indices.getD (6 * j) 0) ⟨0, 0, 0⟩))
      (esub (m.vertices.getD (m.indices.getD (6 * j + 2) 0) ⟨0, 0, 0⟩)
            (m.vertices.getD (m.indices.getD (6 * j) 0) ⟨0, 0, 0⟩)))
      (m.normals.getD (m.indices.getD (6 * j) 0) (0, 0, 0)) ∧
  0 < dot3 (cross
      (esub (m.vertices.getD (m.indices.getD (6 * j + 4) 0) ⟨0, 0, 0⟩)
            (m.vertices.getD (m.indices.getD (6 * j + 3) 0) ⟨0, 0, 0⟩))
      (esub (m.vertices.getD (m.indices.getD (6 * j + 5) 0) ⟨0, 0, 0⟩)
            (m.vertices.getD (m.indices.getD (6 * j + 3) 0) ⟨0, 0, 0⟩)))
      (m.normals.getD (m.indices.getD (6 * j) 0) (0, 0, 0))

/-! ## Panic-aware variants

The Rust functions can abort in exactly two ways: an `invalid direction`
panic (`face_visible`, `expand_direction`, the normal `match`, and the
`face_set[direction]` vector index), and an out-of-range `Vec` index when
reading `chunk.voxels`.  The `...P` variants below return `none` exactly
where the Rust code would panic, and otherwise compute the same values as
the total embedding.  `greedy_meshP = some (greedy_mesh ...)` then states
that the pass never panics. -/

/-- Reading `chunk.voxels[x][y][z]`: `none` models the Rust index panic when
a coordinate is out of range. -/
def vreadP (chunk : Chunk) (x y z : Nat) : Option Nat :=
  if x < chunk.size ∧ y < chunk.size ∧ z < chunk.size then
    some (chunk.voxels x y z)
  else none

/-- Panic-aware `face_visible`: `none` models the `invalid direction` panic
and out-of-range voxel reads. -/
def face_visibleP (face : Face) (direction : Nat) (chunk : Chunk) : Option Bool :=
  if direction = 0 then
    if face.x = chunk.size - 1 then some true
    else (vreadP chunk (face.x + 1) face.y face.z).map (fun v => v == 0)
  else if direction = 1 then
    if face.x = 0 then some true
    else (vreadP chunk (face.x - 1) face.y face.z).map (fun v => v == 0)
  else if direction = 2 then
    if face.y = chunk.size - 1 then some true
    else (vreadP chunk face.x (face.y + 1) face.z).map (fun v => v == 0)
  else if direction = 3 then
    if face.y = 0 then some true
    else (vreadP chunk face.x (face.y - 1) face.z).map (fun v => v == 0)
  else if direction = 4 then
    if face.z = chunk.size - 1 then some true
    else (vreadP chunk face.x face.y (face.z + 1)).map (fun v => v == 0)
  else if direction = 5 then
    if face.z = 0 then some true
    else (vreadP chunk face.x face.y (face.z - 1)).map (fun v => v == 0)
  else
    none

/-- Panic-aware `face_exists`: indexing `face_set[direction]` panics when
`direction ≥ 6` (the queue holds six grids); the in-range coordinate guard
makes the inner indices safe. -/
def face_existsP (face : Face) (direction : Nat) (q : Finset Face)
    (chunk : Chunk) : Option Bool :=
  if direction < 6 then some (face_exists face q chunk) else none

/-- Panic-aware `expand_direction`: `none` is the `Invalid direction!` panic. -/
def expand_directionP (direction : Nat) : Option ExpandDirection :=
  match direction with
  | 0 => some ⟨⟨0, 0, 1⟩, ⟨0, 1, 0⟩⟩
  | 1 => some ⟨⟨0, 0, 1⟩, ⟨0, 1, 0⟩⟩
  | 2 => some ⟨⟨1, 0, 0⟩, ⟨0, 0, 1⟩⟩
  | 3 => some ⟨⟨1, 0, 0⟩, ⟨0, 0, 1⟩⟩
  | 4 => some ⟨⟨1, 0, 0⟩, ⟨0, 1, 0⟩⟩
  | 5 => some ⟨⟨1, 0, 0⟩, ⟨0, 1, 0⟩⟩
  | _ => none

/-- Panic-aware normal selection (`greedy_mesh` lines 404-413). -/
def quad_normalP (d : Nat) : Option (Int × Int × Int) :=
  match d with
  | 0 => some (1, 0, 0)
  | 1 => some (-1, 0, 0)
  | 2 => some (0, 1, 0)
  | 3 => some (0, -1, 0)
  | 4 => some (0, 0, 1)
  | 5 => some (0, 0, -1)
  | _ => none

/-- Panic-aware `FaceFinder::next_face`: the scan indexes `face_set[direction]`
on every probe, so a direction `≥ 6` would panic. -/
def next_faceP (q : Finset Face) (chunk : Chunk) (start : Face)
    (direction : Nat) : Option (Option Face) :=
  if direction < 6 then some (next_face q chunk start) else none

/-- Panic-aware `can_extend_row` over an explicit list of `w` offsets,
preserving the `&&` short-circuit of the Rust closure (a failed
`face_exists` never evaluates `face_visible`). -/
def row_allP (height direction : Nat) (face : Face) (q : Finset Face)
    (chunk : Chunk) : List Nat → Option Bool
  | [] => some true
  | w :: ws => do
    let e ← face_existsP (wcell face (expand_direction direction) w height)
      direction q chunk
    if e then do
      let v ← face_visibleP (wcell face (expand_direction direction) w height)
        direction chunk
      if v then row_allP height direction face q chunk ws else some false
    else some false

/-- Panic-aware `can_extend_row`. -/
def can_extend_rowP (height width direction : Nat) (face : Face)
    (q : Finset Face) (chunk : Chunk) : Option Bool :=
  row_allP height direction face q chunk (List.range width)

/-- Panic-aware width-expansion loop (same fuel discipline as
`expand_width_go`; the `while` condition short-circuits). -/
def expand_width_goP (chunk : Chunk) (d : Nat) (ex : ExpandDirection) (face : Face) :
    Nat → Finset Face → Nat → Option (Nat × Finset Face)
  | 0, q, width => some (width, q)
  | fuel + 1, q, width => do
    let e ← face_existsP (wcell face ex width 0) d q chunk
    if e then do
      let v ← face_visibleP (wcell face ex width 0) d chunk
      if v then
        expand_width_goP chunk d ex face fuel (q.erase (wcell face ex width 0)) (width + 1)
      else some (width, q)
    else some (width, q)

/-- Panic-aware height-expansion loop. -/
def expand_height_goP (chunk : Chunk) (d : Nat) (ex : ExpandDirection) (face : Face)
    (width : Nat) : Nat → Finset Face → Nat → Option (Nat × Finset Face)
  | 0, q, height => some (height, q)
  | fuel + 1, q, height => do
    let r ← can_extend_rowP height width d face q chunk
    if r then
      expand_height_goP chunk d ex face width fuel
        (q \ rowCells face ex width height) (height + 1)
    else some (height, q)

/-- Panic-aware queue initialization for one direction: the loop reads each
in-range voxel (safe) and calls `face_visible` for the solid ones. -/
def init_queue_goP (chunk : Chunk) (d : Nat) : List Face → Finset Face → Option (Finset Face)
  | [], q => some q
  | f :: fs, q =>
    if chunk.voxels f.x f.y f.z = 0 then init_queue_goP chunk d fs q
    else do
      let v ← face_visibleP f d chunk
      init_queue_goP chunk d fs (if v then insert f q else q)

/-- Panic-aware queue initialization. -/
def init_queueP (chunk : Chunk) (d : Nat) : Option (Finset Face) :=
  init_queue_goP chunk d (lexFaces chunk.size) ∅

/-- Panic-aware merge loop for one direction. -/
def merge_pass_goP (chunk : Chunk) (d : Nat) (ex : ExpandDirection) :
    Nat → Finset Face → Face → Option (List Quad)
  | 0, _, _ => some []
  | fuel + 1, q, cursor => do
    let nf ← next_faceP q chunk cursor d
    match nf with
    | none => some []
    | some face => do
      let q1 := q.erase face
      let v ← face_visibleP face d chunk
      if v then do
        let rw ← expand_width_goP chunk d ex face (q1.card + 1) q1 1
        let rh ← expand_height_goP chunk d ex face rw.1 (rw.2.card + 1) rw.2 1
        let rest ← merge_pass_goP chunk d ex fuel rh.2 face
        some (⟨face, rw.1, rh.1, d⟩ :: rest)
      else
        merge_pass_goP chunk d ex fuel q1 face

/-- Panic-aware merge pass for one direction (queue initialization, the
per-direction `expand_direction` call, then the loop). -/
def merge_directionP (chunk : Chunk) (d : Nat) : Option (List Quad) := do
  let q ← init_queueP chunk d
  let ex ← expand_directionP d
  merge_pass_goP chunk d ex (q.card + 1) q ⟨0, 0, 0⟩

/-- Panic-aware quad emission order over the six directions. -/
def greedy_quadsP (chunk : Chunk) : Option (List Quad) := do
  let q0 ← merge_directionP chunk 0
  let q1 ← merge_directionP chunk 1
  let q2 ← merge_directionP chunk 2
  let q3 ← merge_directionP chunk 3
  let q4 ← merge_directionP chunk 4
  let q5 ← merge_directionP chunk 5
  some (q0 ++ q1 ++ q2 ++ q3 ++ q4 ++ q5)

/-- Panic-aware buffer assembly for one quad (the normal `match` can panic). -/
def mesh_pushP (m : MeshData) (qd : Quad) : Option MeshData := do
  let n ← quad_normalP qd.direction
  some { vertices := m.vertices ++ quad_vertices qd
         indices := m.indices ++ quad_indices qd m.vertices.length
         normals := m.normals ++ [n, n, n, n] }

/-- Panic-aware `greedy_mesh`: `none` exactly when the Rust function would
panic. -/
def greedy_meshP (chunk : Chunk) : Option MeshData := do
  let qs ← greedy_quadsP chunk
  qs.foldlM mesh_pushP ⟨[], [], []⟩

/-! ## Concrete fixture chunks for witnesses and counterexamples -/

/-- A fully solid 1×1×1 chunk. -/
def chunkFull1 : Chunk := ⟨1, fun _ _ _ => 1⟩

/-- A fully solid 2×2×2 chunk. -/
def chunkFull2 : Chunk := ⟨2, fun _ _ _ => 1⟩

/-- A 2×2×2 chunk whose only solid voxel is the origin. -/
def chunkSingle2 : Chunk :=
  ⟨2, fun x y z => if x = 0 ∧ y = 0 ∧ z = 0 then 1 else 0⟩

/-- The checkerboard chunk of side `n`: a voxel is solid exactly when the sum
of its coordinates is even.  Every solid voxel is isolated (each of its six
axis neighbours has odd coordinate sum, hence is empty), so each solid voxel
contributes one visible 1×1 face per direction and nothing ever merges; at
`n = 800` this yields `6 · 800³/2 = 1 536 000 000` quads and
`6 144 000 000 > 2^32` vertex entries, driving the `u32` index bases past the
wrap. -/
def chunkCheckerboard (n : Nat) : Chunk :=
  ⟨n, fun x y z => if (x + y + z) % 2 = 0 then 1 else 0⟩

/-- Default quad for positional `getD` lookups into the emitted quad list. -/
def quadD : Quad := ⟨⟨0, 0, 0⟩, 0, 0, 0⟩

/-! ## Basic lemmas about membership, ranges and the scan order -/

theorem mem_allFaces {n : Nat} {f : Face} :
    f ∈ allFaces n ↔ f.x < n ∧ f.y < n ∧ f.z < n := by
  simp only [allFaces, Finset.mem_image, Finset.mem_product, Finset.mem_range]
  constructor
  · rintro ⟨p, ⟨h1, h2, h3⟩, rfl⟩
    exact ⟨h1, h2, h3⟩
  · rintro ⟨h1, h2, h3⟩
    exact ⟨(f.x, f.y, f.z), ⟨h1, h2, h3⟩, rfl⟩

theorem mem_init_queue {c : Chunk} {d : Nat} {f : Face} :
    f ∈ init_queue c d ↔
      inRange c f ∧ c.voxels f.x f.y f.z ≠ 0 ∧ face_visible f d c = true := by
  simp only [init_queue, Finset.mem_filter, mem_allFaces, inRange]

theorem face_exists_eq_true {f : Face} {q : Finset Face} {c : Chunk} :
    face_exists f q c = true ↔ inRange c f ∧ f ∈ q := by
  unfold face_exists inRange
  split
  · next h =>
    simp only [Bool.or_eq_true, decide_eq_true_eq] at h
    simp only [Bool.false_eq_true, false_iff]
    rintro ⟨⟨h1, h2, h3⟩, -⟩
    omega
  · next h =>
    simp only [Bool.or_eq_true, decide_eq_true_eq] at h
    push_neg at h
    simp only [decide_eq_true_eq, iff_and_self]
    intro _
    omega

theorem mem_of_face_exists {f : Face} {q : Finset Face} {c : Chunk}
    (h : face_exists f q c = true) : f ∈ q :=
  (face_exists_eq_true.1 h).2

theorem inRange_of_face_exists {f : Face} {q : Finset Face} {c : Chunk}
    (h : face_exists f q c = true) : inRange c f :=
  (face_exists_eq_true.1 h).1

theorem lexLe_refl (a : Face) : lexLe a a := by unfold lexLe; omega

theorem lexLe_antisymm {a b : Face} (h1 : lexLe a b) (h2 : lexLe b a) : a = b := by
  cases a; cases b
  unfold lexLe at h1 h2
  simp only [Face.mk.injEq]
  simp only at h1 h2
  omega

theorem lexLe_of_lexLt {a b : Face} (h : lexLt a b) : lexLe a b := by
  unfold lexLt at h; unfold lexLe; omega

theorem lexLe_zero (f : Face) : lexLe ⟨0, 0, 0⟩ f := by
  unfold lexLe; simp only; omega

theorem lexLe_of_comp_le {a b : Face} (hx : a.x ≤ b.x) (hy : a.y ≤ b.y)
    (hz : a.z ≤ b.z) : lexLe a b := by
  unfold lexLe; omega

theorem mem_lexFaces {n : Nat} {f : Face} :
    f ∈ lexFaces n ↔ f.x < n ∧ f.y < n ∧ f.z < n := by
  simp only [lexFaces, List.mem_flatMap, List.mem_map, List.mem_range]
  constructor
  · rintro ⟨x, hx, y, hy, z, hz, rfl⟩
    exact ⟨hx, hy, hz⟩
  · rintro ⟨h1, h2, h3⟩
    exact ⟨f.x, h1, f.y, h2, f.z, h3, rfl⟩

theorem pairwise_range_flatMap {α : Type} (R : α → α → Prop) (g : Nat → List α)
    (n : Nat) (hsame : ∀ i, (g i).Pairwise R)
    (hcross : ∀ i j, i < j → ∀ a ∈ g i, ∀ b ∈ g j, R a b) :
    ((List.range n).flatMap g).Pairwise R := by
  induction n with
  | zero => simp
  | succ m ih =>
    rw [List.range_succ, List.flatMap_append, List.pairwise_append]
    refine ⟨ih, ?_, ?_⟩
    · simpa using hsame m
    · intro a ha b hb
      simp only [List.flatMap_cons, List.flatMap_nil, List.append_nil] at hb
      rw [List.mem_flatMap] at ha
      obtain ⟨i, hi, hai⟩ := ha
      rw [List.mem_range] at hi
      exact hcross i m hi a hai b hb

theorem lexFaces_pairwise (n : Nat) : (lexFaces n).Pairwise lexLt := by
  unfold lexFaces
  apply pairwise_range_flatMap
  · intro x
    apply pairwise_range_flatMap
    · intro y
      rw [List.pairwise_map]
      apply List.Pairwise.imp ?_ (List.pairwise_lt_range n)
      intro z z' hzz
      unfold lexLt; dsimp only; omega
    · intro y y' hyy a ha b hb
      rw [List.mem_map] at ha hb
      obtain ⟨z, -, rfl⟩ := ha
      obtain ⟨z', -, rfl⟩ := hb
      unfold lexLt; dsimp only; omega
  · intro x x' hxx a ha b hb
    simp only [List.mem_flatMap, List.mem_map] at ha hb
    obtain ⟨y, -, z, -, rfl⟩ := ha
    obtain ⟨y', -, z', -, rfl⟩ := hb
    unfold lexLt; dsimp only; omega

theorem find?_first {α : Type} {R : α → α → Prop} {p : α → Bool} {a b : α} :
    ∀ {l : List α}, l.Pairwise R → l.find? p = some a → b ∈ l → p b = true →
      a = b ∨ R a b := by
  intro l
  induction l with
  | nil => simp
  | cons x xs ih =>
    intro hpw hfind hb hpb
    rw [List.pairwise_cons] at hpw
    by_cases hx : p x = true
    · rw [List.find?_cons_of_pos _ hx, Option.some.injEq] at hfind
      subst hfind
      rcases List.mem_cons.1 hb with rfl | hmem
      · exact Or.inl rfl
      · exact Or.inr (hpw.1 b hmem)
    · rw [List.find?_cons_of_neg _ hx] at hfind
      rcases List.mem_cons.1 hb with rfl | hmem
      · exact absurd hpb hx
      · exact ih hpw.2 hfind hmem hpb

theorem next_face_some {q : Finset Face} {c : Chunk} {start f : Face}
    (h : next_face q c start = some f) :
    f ∈ q ∧ inRange c f ∧ lexLe start f ∧
      ∀ g ∈ q, inRange c g → lexLe start g → lexLe f g := by
  unfold next_face at h
  have hmem := List.mem_of_find?_eq_some h
  have hpf := List.find?_some h
  rw [List.mem_filter] at hmem
  rw [decide_eq_true_eq] at hpf
  have hrange := mem_lexFaces.1 hmem.1
  have hlex := of_decide_eq_true hmem.2
  refine ⟨hpf, hrange, hlex, ?_⟩
  intro g hg hgin hglex
  have hgmem : g ∈ (lexFaces c.size).filter fun p => decide (lexLe start p) := by
    rw [List.mem_filter]
    exact ⟨mem_lexFaces.2 hgin, decide_eq_true hglex⟩
  have hpair : ((lexFaces c.size).filter fun p => decide (lexLe start p)).Pairwise lexLt :=
    (lexFaces_pairwise c.size).filter _
  rcases find?_first hpair h hgmem (decide_eq_true hg) with rfl | hlt
  · exact lexLe_refl f
  · exact lexLe_of_lexLt hlt

theorem next_face_none {q : Finset Face} {c : Chunk} {start : Face}
    (h : next_face q c start = none) :
    ∀ g ∈ q, inRange c g → lexLe start g → False := by
  unfold next_face at h
  rw [List.find?_eq_none] at h
  intro g hg hgin hglex
  have hgmem : g ∈ (lexFaces c.size).filter fun p => decide (lexLe start p) := by
    rw [List.mem_filter]
    exact ⟨mem_lexFaces.2 hgin, decide_eq_true hglex⟩
  exact h g hgmem (decide_eq_true hg)

theorem next_face_eq_some {q : Finset Face} {c : Chunk} {start f : Face}
    (hf : f ∈ q) (hin : inRange c f) (hstart : lexLe start f)
    (hmin : ∀ g ∈ q, inRange c g → lexLe start g → lexLe f g) :
    next_face q c start = some f := by
  cases hopt : next_face q c start with
  | none => exact absurd (next_face_none hopt f hf hin hstart) not_false
  | some f' =>
    obtain ⟨hf', hin', hstart', hmin'⟩ := next_face_some hopt
    rw [lexLe_antisymm (hmin f' hf' hin' hstart') (hmin' f hf hin hstart)]

/-! ## Cell rectangles -/

theorem mem_cellsRect {f : Face} {ex : ExpandDirection} {w1 w2 h1 h2 : Nat} {g : Face} :
    g ∈ cellsRect f ex w1 w2 h1 h2 ↔
      ∃ w h, w1 ≤ w ∧ w < w2 ∧ h1 ≤ h ∧ h < h2 ∧ g = wcell f ex w h := by
  simp only [cellsRect, Finset.mem_image, Finset.mem_product, Finset.mem_Ico]
  constructor
  · rintro ⟨⟨w, h⟩, ⟨⟨hw1, hw2⟩, ⟨hh1, hh2⟩⟩, rfl⟩
    exact ⟨w, h, hw1, hw2, hh1, hh2, rfl⟩
  · rintro ⟨w, h, hw1, hw2, hh1, hh2, rfl⟩
    exact ⟨(w, h), ⟨⟨hw1, hw2⟩, hh1, hh2⟩, rfl⟩

theorem wcell_zero (f : Face) (ex : ExpandDirection) : wcell f ex 0 0 = f := by
  cases f; simp [wcell]

theorem wcell_inj {d : Nat} (hd : d < 6) {f : Face} {w h w' h' : Nat}
    (heq : wcell f (expand_direction d) w h = wcell f (expand_direction d) w' h') :
    w = w' ∧ h = h' := by
  interval_cases d <;>
    (simp only [wcell, expand_direction, Face.mk.injEq] at heq; omega)

theorem rowCells_eq_cellsRect (f : Face) (ex : ExpandDirection) (W h : Nat) :
    rowCells f ex W h = cellsRect f ex 0 W h (h + 1) := by
  ext g
  simp only [rowCells, Finset.mem_image, Finset.mem_range, mem_cellsRect]
  constructor
  · rintro ⟨w, hw, rfl⟩
    exact ⟨w, h, by omega, hw, by omega, by omega, rfl⟩
  · rintro ⟨w, h', -, hw, hh1, hh2, rfl⟩
    exact ⟨w, hw, by rw [show h' = h by omega]⟩

theorem cellsRect_self_w (f : Face) (ex : ExpandDirection) (w h1 h2 : Nat) :
    cellsRect f ex w w h1 h2 = ∅ := by
  simp [cellsRect]

theorem cellsRect_self_h (f : Face) (ex : ExpandDirection) (w1 w2 h : Nat) :
    cellsRect f ex w1 w2 h h = ∅ := by
  simp [cellsRect]

/-! ## The width-expansion loop -/

theorem can_extend_row_iff {h wd d : Nat} {f : Face} {q : Finset Face} {c : Chunk} :
    can_extend_row h wd d f q c = true ↔
      ∀ k, k < wd →
        inRange c (wcell f (expand_direction d) k h) ∧
        wcell f (expand_direction d) k h ∈ q ∧
        face_visible (wcell f (expand_direction d) k h) d c = true := by
  unfold can_extend_row
  rw [List.all_eq_true]
  constructor
  · intro hall k hk
    have := hall k (List.mem_range.2 hk)
    rw [Bool.and_eq_true, face_exists_eq_true] at this
    exact ⟨this.1.1, this.1.2, this.2⟩
  · intro hall k hk
    rw [List.mem_range] at hk
    rw [Bool.and_eq_true, face_exists_eq_true]
    exact ⟨⟨(hall k hk).1, (hall k hk).2.1⟩, (hall k hk).2.2⟩

theorem expand_width_go_spec (c : Chunk) (d : Nat) (ex : ExpandDirection) (f : Face) :
    ∀ fuel q w, q.card < fuel →
      ∃ W q', expand_width_go c d ex f fuel q w = (W, q') ∧
        w ≤ W ∧
        q' = q \ cellsRect f ex w W 0 1 ∧
        (∀ k, w ≤ k → k < W →
          wcell f ex k 0 ∈ q ∧ inRange c (wcell f ex k 0) ∧
          face_visible (wcell f ex k 0) d c = true) ∧
        ¬(face_exists (wcell f ex W 0) q' c = true ∧
          face_visible (wcell f ex W 0) d c = true) := by
  intro fuel
  induction fuel with
  | zero => intro q w h; omega
  | succ m ih =>
    intro q w hcard
    by_cases hcond :
        (face_exists (wcell f ex w 0) q c && face_visible (wcell f ex w 0) d c) = true
    · rw [Bool.and_eq_true] at hcond
      obtain ⟨hex, hvis⟩ := hcond
      have hmem : wcell f ex w 0 ∈ q := mem_of_face_exists hex
      have hin : inRange c (wcell f ex w 0) := inRange_of_face_exists hex
      have hpos : 0 < q.card := Finset.card_pos.2 ⟨_, hmem⟩
      have hcard' : (q.erase (wcell f ex w 0)).card < m := by
        rw [Finset.card_erase_of_mem hmem]; omega
      obtain ⟨W, q', heq, hW, hq', hcells, hstop⟩ := ih (q.erase (wcell f ex w 0)) (w + 1) hcard'
      have hrect : ∀ g : Face,
          g ∈ cellsRect f ex w W 0 1 ↔
            g = wcell f ex w 0 ∨ g ∈ cellsRect f ex (w + 1) W 0 1 := by
        intro g
        simp only [mem_cellsRect]
        constructor
        · rintro ⟨k, hh, h1, h2, -, h4, rfl⟩
          by_cases hkw : k = w
          · subst hkw
            left
            rw [show hh = 0 by omega]
          · right
            exact ⟨k, hh, by omega, h2, by omega, h4, rfl⟩
        · rintro (rfl | ⟨k, hh, h1, h2, h3, h4, rfl⟩)
          · exact ⟨w, 0, le_refl w, by omega, by omega, by omega, rfl⟩
          · exact ⟨k, hh, by omega, h2, h3, h4, rfl⟩
      refine ⟨W, q', ?_, by omega, ?_, ?_, hstop⟩
      · rw [expand_width_go]
        simp only [hex, hvis, Bool.and_self, if_true]
        exact heq
      · rw [hq']
        ext g
        simp only [Finset.mem_sdiff, Finset.mem_erase, hrect]
        constructor
        · rintro ⟨⟨hne, hgq⟩, hnot⟩
          exact ⟨hgq, by tauto⟩
        · rintro ⟨hgq, hnot⟩
          exact ⟨⟨fun hgeq => hnot (Or.inl hgeq), hgq⟩, fun hgr => hnot (Or.inr hgr)⟩
      · intro k hk1 hk2
        by_cases hkw : k = w
        · subst hkw
          exact ⟨hmem, hin, hvis⟩
        · have := hcells k (by omega) hk2
          exact ⟨Finset.mem_of_mem_erase this.1, this.2.1, this.2.2⟩
    · refine ⟨w, q, ?_, le_refl w, ?_, by omega, ?_⟩
      · rw [expand_width_go]
        simp only [hcond, Bool.false_eq_true, if_false]
      · rw [cellsRect_self_w, Finset.sdiff_empty]
      · rw [Bool.and_eq_true] at hcond
        exact hcond

theorem expand_width_spec (c : Chunk) (d : Nat) (ex : ExpandDirection) (f : Face)
    (q : Finset Face) (w : Nat) :
    ∃ W q', expand_width c d ex f q w = (W, q') ∧
      w ≤ W ∧
      q' = q \ cellsRect f ex w W 0 1 ∧
      (∀ k, w ≤ k → k < W →
        wcell f ex k 0 ∈ q ∧ inRange c (wcell f ex k 0) ∧
        face_visible (wcell f ex k 0) d c = true) ∧
      ¬(face_exists (wcell f ex W 0) q' c = true ∧
        face_visible (wcell f ex W 0) d c = true) :=
  expand_width_go_spec c d ex f (q.card + 1) q w (Nat.lt_succ_self _)

/-! ## The height-expansion loop -/

theorem expand_height_go_spec (c : Chunk) (d : Nat) (f : Face) {W : Nat} (hW : 0 < W) :
    ∀ fuel q h0, q.card < fuel →
      ∃ H q',
        expand_height_go c d (expand_direction d) f W fuel q h0 = (H, q') ∧
        h0 ≤ H ∧
        q' = q \ cellsRect f (expand_direction d) 0 W h0 H ∧
        (∀ h, h0 ≤ h → h < H → ∀ k, k < W →
          wcell f (expand_direction d) k h ∈ q ∧
          inRange c (wcell f (expand_direction d) k h) ∧
          face_visible (wcell f (expand_direction d) k h) d c = true) ∧
        can_extend_row H W d f q' c = false := by
  intro fuel
  induction fuel with
  | zero => intro q h0 h; omega
  | succ m ih =>
    intro q h0 hcard
    by_cases hcond : can_extend_row h0 W d f q c = true
    · have hrow := can_extend_row_iff.1 hcond
      have hmem0 : wcell f (expand_direction d) 0 h0 ∈ q := (hrow 0 hW).2.1
      have hrowmem : wcell f (expand_direction d) 0 h0 ∈
          rowCells f (expand_direction d) W h0 := by
        simp only [rowCells, Finset.mem_image, Finset.mem_range]
        exact ⟨0, hW, rfl⟩
      have hss : q \ rowCells f (expand_direction d) W h0 ⊂ q := by
        refine ⟨Finset.sdiff_subset, fun hsub => ?_⟩
        have := hsub hmem0
        rw [Finset.mem_sdiff] at this
        exact this.2 hrowmem
      have hcard' : (q \ rowCells f (expand_direction d) W h0).card < m := by
        have := Finset.card_lt_card hss
        omega
      obtain ⟨H, q', heq, hH, hq', hcells, hstop⟩ :=
        ih (q \ rowCells f (expand_direction d) W h0) (h0 + 1) hcard'
      have hrect : ∀ g : Face,
          g ∈ cellsRect f (expand_direction d) 0 W h0 H ↔
            g ∈ rowCells f (expand_direction d) W h0 ∨
            g ∈ cellsRect f (expand_direction d) 0 W (h0 + 1) H := by
        intro g
        rw [rowCells_eq_cellsRect]
        simp only [mem_cellsRect]
        constructor
        · rintro ⟨k, hh, h1, h2, h3, h4, rfl⟩
          by_cases hhh : hh = h0
          · subst hhh
            exact Or.inl ⟨k, hh, by omega, h2, by omega, by omega, rfl⟩
          · exact Or.inr ⟨k, hh, by omega, h2, by omega, h4, rfl⟩
        · rintro (⟨k, hh, h1, h2, h3, h4, rfl⟩ | ⟨k, hh, h1, h2, h3, h4, rfl⟩)
          · exact ⟨k, hh, by omega, h2, by omega, by omega, rfl⟩
          · exact ⟨k, hh, by omega, h2, by omega, h4, rfl⟩
      refine ⟨H, q', ?_, by omega, ?_, ?_, hstop⟩
      · rw [expand_height_go]
        simp only [hcond, if_true]
        exact heq
      · rw [hq']
        ext g
        simp only [Finset.mem_sdiff, hrect]
        tauto
      · intro h hh1 hh2 k hk
        by_cases hhh : h = h0
        · subst hhh
          exact ⟨(hrow k hk).2.1, (hrow k hk).1, (hrow k hk).2.2⟩
        · have := hcells h (by omega) hh2 k hk
          rw [Finset.mem_sdiff] at this
          exact ⟨this.1.1, this.2.1, this.2.2⟩
    · refine ⟨h0, q, ?_, le_refl h0, ?_, by omega, ?_⟩
      · rw [expand_height_go]
        simp only [hcond, Bool.false_eq_true, if_false]
      · rw [cellsRect_self_h, Finset.sdiff_empty]
      · rw [Bool.not_eq_true] at hcond
        exact hcond

theorem expand_height_spec (c : Chunk) (d : Nat) (f : Face) {W : Nat} (hW : 0 < W)
    (q : Finset Face) (h0 : Nat) :
    ∃ H q',
      expand_height c d (expand_direction d) f W q h0 = (H, q') ∧
      h0 ≤ H ∧
      q' = q \ cellsRect f (expand_direction d) 0 W h0 H ∧
      (∀ h, h0 ≤ h → h < H → ∀ k, k < W →
        wcell f (expand_direction d) k h ∈ q ∧
        inRange c (wcell f (expand_direction d) k h) ∧
        face_visible (wcell f (expand_direction d) k h) d c = true) ∧
      can_extend_row H W d f q' c = false :=
  expand_height_go_spec c d f hW (q.card + 1) q h0 (Nat.lt_succ_self _)

/-! ## The cells covered by a quad -/

theorem quad_cells_list_nodup {qd : Quad} (hd : qd.direction < 6) :
    (quad_cells_list qd).Nodup := by
  unfold quad_cells_list
  apply pairwise_range_flatMap
  · intro w
    rw [List.pairwise_map]
    apply List.Pairwise.imp ?_ (List.pairwise_lt_range _)
    intro h h' hlt heq
    exact absurd (wcell_inj hd heq).2 (by omega)
  · intro w w' hw a ha b hb
    rw [List.mem_map] at ha hb
    obtain ⟨h, -, rfl⟩ := ha
    obtain ⟨h', -, rfl⟩ := hb
    intro heq
    exact absurd (wcell_inj hd heq).1 (by omega)

theorem mem_quad_cells_list {qd : Quad} {g : Face} :
    g ∈ quad_cells_list qd ↔
      ∃ w h, w < qd.width ∧ h < qd.height ∧
        g = wcell qd.face (expand_direction qd.direction) w h := by
  simp only [quad_cells_list, List.mem_flatMap, List.mem_map, List.mem_range]
  constructor
  · rintro ⟨w, hw, h, hh, rfl⟩
    exact ⟨w, h, hw, hh, rfl⟩
  · rintro ⟨w, h, hw, hh, rfl⟩
    exact ⟨w, hw, h, hh, rfl⟩

theorem quad_cells_list_toFinset (qd : Quad) :
    (quad_cells_list qd).toFinset = quad_cells qd := by
  ext g
  rw [List.mem_toFinset, mem_quad_cells_list]
  simp only [quad_cells, mem_cellsRect]
  constructor
  · rintro ⟨w, h, hw, hh, rfl⟩
    exact ⟨w, h, by omega, hw, by omega, hh, rfl⟩
  · rintro ⟨w, h, -, hw, -, hh, rfl⟩
    exact ⟨w, h, hw, hh, rfl⟩

theorem face_mem_quad_cells {f : Face} {W H d : Nat} (hW : 1 ≤ W) (hH : 1 ≤ H) :
    f ∈ quad_cells ⟨f, W, H, d⟩ := by
  simp only [quad_cells, mem_cellsRect]
  exact ⟨0, 0, by omega, by omega, by omega, by omega, (wcell_zero f _).symm⟩

/-! ## One iteration of the merge loop -/

theorem merge_face_spec {c : Chunk} {d : Nat} {q : Finset Face} {f : Face}
    (hvis : face_visible f d c = true) :
    ∃ W H, 1 ≤ W ∧ 1 ≤ H ∧
      merge_face c d q f = (some ⟨f, W, H, d⟩, q \ quad_cells ⟨f, W, H, d⟩) ∧
      (f ∈ q → quad_cells ⟨f, W, H, d⟩ ⊆ q) := by
  obtain ⟨W, q2, heqw, hW1, hq2, hcellsw, -⟩ :=
    expand_width_spec c d (expand_direction d) f (q.erase f) 1
  obtain ⟨H, q3, heqh, hH1, hq3, hcellsh, -⟩ :=
    expand_height_spec c d f (show 0 < W by omega) q2 1
  have hsplit : ∀ g : Face,
      g ∈ cellsRect f (expand_direction d) 0 W 0 H ↔
        g = f ∨ g ∈ cellsRect f (expand_direction d) 1 W 0 1 ∨
          g ∈ cellsRect f (expand_direction d) 0 W 1 H := by
    intro g
    simp only [mem_cellsRect]
    constructor
    · rintro ⟨w, h, h1, h2, h3, h4, rfl⟩
      by_cases hh : h = 0
      · subst hh
        by_cases hw : w = 0
        · subst hw
          exact Or.inl (wcell_zero f _)
        · exact Or.inr (Or.inl ⟨w, 0, by omega, h2, by omega, by omega, rfl⟩)
      · exact Or.inr (Or.inr ⟨w, h, by omega, h2, by omega, h4, rfl⟩)
    · rintro (rfl | ⟨w, h, h1, h2, h3, h4, rfl⟩ | ⟨w, h, h1, h2, h3, h4, rfl⟩)
      · exact ⟨0, 0, by omega, by omega, by omega, by omega, (wcell_zero g _).symm⟩
      · exact ⟨w, h, by omega, h2, by omega, by omega, rfl⟩
      · exact ⟨w, h, by omega, h2, by omega, h4, rfl⟩
  have hq3' : q3 = q \ quad_cells ⟨f, W, H, d⟩ := by
    rw [hq3, hq2]
    ext g
    simp only [quad_cells, Finset.mem_sdiff, Finset.mem_erase, hsplit]
    constructor
    · rintro ⟨⟨⟨hne, hgq⟩, hnw⟩, hnh⟩
      refine ⟨hgq, ?_⟩
      rintro (rfl | hw | hh)
      · exact hne rfl
      · exact hnw hw
      · exact hnh hh
    · rintro ⟨hgq, hnot⟩
      exact ⟨⟨⟨fun hgeq => hnot (Or.inl hgeq), hgq⟩,
        fun hw => hnot (Or.inr (Or.inl hw))⟩, fun hh => hnot (Or.inr (Or.inr hh))⟩
  refine ⟨W, H, hW1, hH1, ?_, ?_⟩
  · unfold merge_face
    simp only [hvis, if_true, heqw, heqh]
    rw [hq3']
  · intro hfq g hg
    simp only [quad_cells] at hg
    rcases (hsplit g).1 hg with rfl | hw | hh
    · exact hfq
    · rw [mem_cellsRect] at hw
      obtain ⟨w, h, h1, h2, -, h4, rfl⟩ := hw
      have hh0 : h = 0 := by omega
      subst hh0
      exact Finset.mem_of_mem_erase (hcellsw w h1 h2).1
    · rw [mem_cellsRect] at hh
      obtain ⟨w, h, -, h2, h3, h4, rfl⟩ := hh
      have hmem := (hcellsh h h3 h4 w h2).1
      rw [hq2, Finset.mem_sdiff] at hmem
      exact Finset.mem_of_mem_erase hmem.1

theorem merge_face_not_visible {c : Chunk} {d : Nat} {q : Finset Face} {f : Face}
    (hvis : face_visible f d c = false) :
    merge_face c d q f = (none, q.erase f) := by
  unfold merge_face
  simp only [hvis, Bool.false_eq_true, if_false]

theorem merge_face_subset_erase {c : Chunk} {d : Nat} {q : Finset Face} {f : Face} :
    (merge_face c d q f).2 ⊆ q.erase f := by
  cases hvis : face_visible f d c with
  | false => rw [merge_face_not_visible hvis]
  | true =>
    obtain ⟨W, H, hW, hH, hmf, -⟩ := merge_face_spec (q := q) hvis
    rw [hmf]
    intro g hg
    rw [Finset.mem_sdiff] at hg
    rw [Finset.mem_erase]
    refine ⟨?_, hg.1⟩
    rintro rfl
    exact hg.2 (face_mem_quad_cells hW hH)

theorem merge_face_card_lt {c : Chunk} {d : Nat} {q : Finset Face} {f : Face}
    (hf : f ∈ q) : (merge_face c d q f).2.card < q.card := by
  have h1 : (merge_face c d q f).2.card ≤ (q.erase f).card :=
    Finset.card_le_card merge_face_subset_erase
  have h2 : (q.erase f).card = q.card - 1 := Finset.card_erase_of_mem hf
  have h3 : 0 < q.card := Finset.card_pos.2 ⟨f, hf⟩
  omega

/-! ## The merge pass: exact coverage invariant -/

theorem merge_pass_go_cover (c : Chunk) (d : Nat) (hd : d < 6) :
    ∀ fuel q cursor, q.card < fuel → q ⊆ init_queue c d →
      (∀ g ∈ q, lexLe cursor g) →
      ((merge_pass_go c d fuel q cursor).flatMap quad_cells_list).Nodup ∧
      ((merge_pass_go c d fuel q cursor).flatMap quad_cells_list).toFinset = q ∧
      ∀ qd ∈ merge_pass_go c d fuel q cursor,
        qd.direction = d ∧ 1 ≤ qd.width ∧ 1 ≤ qd.height ∧ qd.face ∈ q := by
  intro fuel
  induction fuel with
  | zero => intro q cursor h; omega
  | succ m ih =>
    intro q cursor hcard hsub hcur
    cases hnext : next_face q c cursor with
    | none =>
      have hq : q = ∅ := by
        apply Finset.eq_empty_of_forall_not_mem
        intro g hg
        exact next_face_none hnext g hg (mem_init_queue.1 (hsub hg)).1 (hcur g hg)
      rw [merge_pass_go, hnext]
      simp [hq]
    | some f =>
      obtain ⟨hfq, hfin, hcurf, hmin⟩ := next_face_some hnext
      have hvis : face_visible f d c = true := (mem_init_queue.1 (hsub hfq)).2.2
      obtain ⟨W, H, hW, hH, hmf, hsubq⟩ := merge_face_spec (q := q) hvis
      have hScells := hsubq hfq
      have hfS : f ∈ quad_cells ⟨f, W, H, d⟩ := face_mem_quad_cells hW hH
      have hq' : (merge_face c d q f).2 = q \ quad_cells ⟨f, W, H, d⟩ := by
        rw [hmf]
      have hcard' : (q \ quad_cells ⟨f, W, H, d⟩).card < m := by
        have := merge_face_card_lt (c := c) (d := d) hfq
        rw [hq'] at this
        omega
      have hsub' : q \ quad_cells ⟨f, W, H, d⟩ ⊆ init_queue c d :=
        Finset.Subset.trans Finset.sdiff_subset hsub
      have hcur' : ∀ g ∈ q \ quad_cells ⟨f, W, H, d⟩, lexLe f g := by
        intro g hg
        rw [Finset.mem_sdiff] at hg
        exact hmin g hg.1 (mem_init_queue.1 (hsub hg.1)).1 (hcur g hg.1)
      obtain ⟨ihnodup, ihcover, ihmeta⟩ := ih _ f hcard' hsub' hcur'
      have hpass : merge_pass_go c d (m + 1) q cursor =
          ⟨f, W, H, d⟩ :: merge_pass_go c d m (q \ quad_cells ⟨f, W, H, d⟩) f := by
        rw [merge_pass_go, hnext]
        simp only [hmf]
      rw [hpass]
      rw [List.flatMap_cons]
      refine ⟨?_, ?_, ?_⟩
      · rw [List.nodup_append]
        refine ⟨quad_cells_list_nodup (by exact hd), ihnodup, ?_⟩
        intro g hg1 hg2
        have hg1' : g ∈ quad_cells ⟨f, W, H, d⟩ := by
          rw [← quad_cells_list_toFinset, List.mem_toFinset]
          exact hg1
        have hg2' : g ∈ q \ quad_cells ⟨f, W, H, d⟩ := by
          rw [← ihcover, List.mem_toFinset]
          exact hg2
        rw [Finset.mem_sdiff] at hg2'
        exact hg2'.2 hg1'
      · rw [List.toFinset_append, quad_cells_list_toFinset, ihcover]
        ext g
        simp only [Finset.mem_union, Finset.mem_sdiff]
        constructor
        · rintro (hg | ⟨hg, -⟩)
          · exact hScells hg
          · exact hg
        · intro hg
          by_cases hgS : g ∈ quad_cells ⟨f, W, H, d⟩
          · exact Or.inl hgS
          · exact Or.inr ⟨hg, hgS⟩
      · intro qd hqd
        rcases List.mem_cons.1 hqd with rfl | hmem
        · exact ⟨rfl, hW, hH, hfq⟩
        · obtain ⟨h1, h2, h3, h4⟩ := ihmeta qd hmem
          exact ⟨h1, h2, h3, Finset.mem_sdiff.1 h4 |>.1⟩

/-! ## A determined run: the queue is one full rectangle -/

theorem wcell_mem_cellsRect_iff {d : Nat} (hd : d < 6) {f : Face} {w h w1 w2 h1 h2 : Nat} :
    wcell f (expand_direction d) w h ∈ cellsRect f (expand_direction d) w1 w2 h1 h2 ↔
      w1 ≤ w ∧ w < w2 ∧ h1 ≤ h ∧ h < h2 := by
  rw [mem_cellsRect]
  constructor
  · rintro ⟨w', h', hw1, hw2, hh1, hh2, hcell⟩
    obtain ⟨rfl, rfl⟩ := wcell_inj hd hcell
    exact ⟨hw1, hw2, hh1, hh2⟩
  · rintro ⟨hw1, hw2, hh1, hh2⟩
    exact ⟨w, h, hw1, hw2, hh1, hh2, rfl⟩

theorem lexLe_wcell (f : Face) (ex : ExpandDirection) (w h : Nat) :
    lexLe f (wcell f ex w h) := by
  unfold lexLe wcell
  dsimp only
  omega

theorem next_face_empty (c : Chunk) (s : Face) : next_face ∅ c s = none := by
  unfold next_face
  rw [List.find?_eq_none]
  intro g hg
  simp

theorem merge_pass_go_empty (c : Chunk) (d : Nat) :
    ∀ fuel cursor, merge_pass_go c d fuel ∅ cursor = [] := by
  intro fuel cursor
  cases fuel with
  | zero => rfl
  | succ m => rw [merge_pass_go, next_face_empty]

theorem merge_face_rect (c : Chunk) {d : Nat} (hd : d < 6) (f : Face) {W H : Nat}
    (hW : 0 < W) (hH : 0 < H)
    (hin : ∀ g ∈ cellsRect f (expand_direction d) 0 W 0 H, inRange c g)
    (hvis : ∀ g ∈ cellsRect f (expand_direction d) 0 W 0 H, face_visible g d c = true) :
    merge_face c d (cellsRect f (expand_direction d) 0 W 0 H) f =
      (some ⟨f, W, H, d⟩, ∅) := by
  have hfmem : f ∈ cellsRect f (expand_direction d) 0 W 0 H := by
    rw [mem_cellsRect]
    exact ⟨0, 0, by omega, hW, by omega, hH, (wcell_zero f _).symm⟩
  obtain ⟨W', q2, heqw, hW1, hq2, hcellsw, hstopw⟩ :=
    expand_width_spec c d (expand_direction d) f
      ((cellsRect f (expand_direction d) 0 W 0 H).erase f) 1
  have hW'le : W' ≤ W := by
    by_contra hgt
    push_neg at hgt
    have hc := (hcellsw W (by omega) (by omega)).1
    have hc0 := Finset.mem_of_mem_erase hc
    rw [wcell_mem_cellsRect_iff hd] at hc0
    omega
  have hW'eq : W' = W := by
    rcases Nat.lt_or_ge W' W with hlt | hge
    · exfalso
      apply hstopw
      have hcellmem : wcell f (expand_direction d) W' 0 ∈
          cellsRect f (expand_direction d) 0 W 0 H :=
        (wcell_mem_cellsRect_iff hd).2 ⟨by omega, hlt, by omega, hH⟩
      constructor
      · rw [face_exists_eq_true]
        refine ⟨hin _ hcellmem, ?_⟩
        rw [hq2, Finset.mem_sdiff, Finset.mem_erase]
        refine ⟨⟨?_, hcellmem⟩, ?_⟩
        · intro heqf
          have := wcell_inj hd (heqf.trans (wcell_zero f (expand_direction d)).symm)
          omega
        · rw [wcell_mem_cellsRect_iff hd]
          omega
      · exact hvis _ hcellmem
    · omega
  subst hW'eq
  obtain ⟨H', q3, heqh, hH1, hq3, hcellsh, hstoph⟩ :=
    expand_height_spec c d f (show 0 < W' by omega) q2 1
  have hH'le : H' ≤ H := by
    by_contra hgt
    push_neg at hgt
    have hc := (hcellsh H (by omega) (by omega) 0 (by omega)).1
    rw [hq2, Finset.mem_sdiff, Finset.mem_erase] at hc
    have hc0 := hc.1.2
    rw [wcell_mem_cellsRect_iff hd] at hc0
    omega
  have hH'eq : H' = H := by
    rcases Nat.lt_or_ge H' H with hlt | hge
    · exfalso
      have hrow : can_extend_row H' W' d f q3 c = true := by
        rw [can_extend_row_iff]
        intro k hk
        have hcellmem : wcell f (expand_direction d) k H' ∈
            cellsRect f (expand_direction d) 0 W' 0 H :=
          (wcell_mem_cellsRect_iff hd).2 ⟨by omega, hk, by omega, hlt⟩
        refine ⟨hin _ hcellmem, ?_, hvis _ hcellmem⟩
        rw [hq3, hq2]
        rw [Finset.mem_sdiff, Finset.mem_sdiff, Finset.mem_erase]
        refine ⟨⟨⟨?_, hcellmem⟩, ?_⟩, ?_⟩
        · intro heqf
          have := wcell_inj hd (heqf.trans (wcell_zero f (expand_direction d)).symm)
          omega
        · rw [wcell_mem_cellsRect_iff hd]
          omega
        · rw [wcell_mem_cellsRect_iff hd]
          omega
      rw [hrow] at hstoph
      exact Bool.noConfusion hstoph
    · omega
  subst hH'eq
  have hempty : q3 = ∅ := by
    rw [hq3, hq2]
    apply Finset.eq_empty_of_forall_not_mem
    intro g hg
    rw [Finset.mem_sdiff, Finset.mem_sdiff, Finset.mem_erase] at hg
    obtain ⟨⟨⟨hne, hg0⟩, hnw⟩, hnh⟩ := hg
    rw [mem_cellsRect] at hg0
    obtain ⟨w, h, -, hw2, -, hh2, rfl⟩ := hg0
    by_cases hh0 : h = 0
    · subst hh0
      by_cases hw0 : w = 0
      · subst hw0
        exact hne (wcell_zero f _)
      · exact hnw ((wcell_mem_cellsRect_iff hd).2 ⟨by omega, hw2, by omega, by omega⟩)
    · exact hnh ((wcell_mem_cellsRect_iff hd).2 ⟨by omega, hw2, by omega, hh2⟩)
  unfold merge_face
  simp only [hvis f hfmem, if_true, heqw, heqh, hempty]

theorem merge_pass_rect (c : Chunk) {d : Nat} (hd : d < 6) (f : Face) {W H : Nat}
    (hW : 0 < W) (hH : 0 < H)
    (hin : ∀ g ∈ cellsRect f (expand_direction d) 0 W 0 H, inRange c g)
    (hvis : ∀ g ∈ cellsRect f (expand_direction d) 0 W 0 H, face_visible g d c = true)
    (fuel : Nat) :
    merge_pass_go c d (fuel + 1) (cellsRect f (expand_direction d) 0 W 0 H) ⟨0, 0, 0⟩ =
      [⟨f, W, H, d⟩] := by
  have hfmem : f ∈ cellsRect f (expand_direction d) 0 W 0 H := by
    rw [mem_cellsRect]
    exact ⟨0, 0, by omega, hW, by omega, hH, (wcell_zero f _).symm⟩
  have hnext : next_face (cellsRect f (expand_direction d) 0 W 0 H) c ⟨0, 0, 0⟩ =
      some f := by
    apply next_face_eq_some hfmem (hin f hfmem) (lexLe_zero f)
    intro g hg _ _
    rw [mem_cellsRect] at hg
    obtain ⟨w, h, -, -, -, -, rfl⟩ := hg
    exact lexLe_wcell f _ w h
  rw [merge_pass_go, hnext]
  simp only [merge_face_rect c hd f hW hH hin hvis]
  rw [merge_pass_go_empty]

theorem cellsRect_card {d : Nat} (hd : d < 6) (f : Face) (W H : Nat) :
    (cellsRect f (expand_direction d) 0 W 0 H).card = W * H := by
  have hinj : Set.InjOn (fun p : Nat × Nat => wcell f (expand_direction d) p.1 p.2)
      ((Finset.Ico 0 W) ×ˢ (Finset.Ico 0 H) : Finset (Nat × Nat)) := by
    intro p _ p' _ heq
    obtain ⟨h1, h2⟩ := wcell_inj hd heq
    exact Prod.ext h1 h2
  unfold cellsRect
  rw [Finset.card_image_of_injOn hinj, Finset.card_product]
  simp

/-! ## Buffer lengths -/

theorem quad_vertices_length (qd : Quad) : (quad_vertices qd).length = 4 := rfl

theorem quad_indices_length (qd : Quad) (b : Nat) : (quad_indices qd b).length = 6 := by
  unfold quad_indices
  split <;> rfl

theorem foldl_mesh_push_len (qs : List Quad) :
    ∀ m0 : MeshData,
      ((qs.foldl mesh_push m0).vertices.length = m0.vertices.length + 4 * qs.length) ∧
      ((qs.foldl mesh_push m0).indices.length = m0.indices.length + 6 * qs.length) ∧
      ((qs.foldl mesh_push m0).normals.length = m0.normals.length + 4 * qs.length) := by
  induction qs with
  | nil => intro m0; simp
  | cons qd qs ih =>
    intro m0
    rw [List.foldl_cons]
    obtain ⟨h1, h2, h3⟩ := ih (mesh_push m0 qd)
    rw [h1, h2, h3]
    unfold mesh_push
    simp only [List.length_append, quad_vertices_length, quad_indices_length,
      List.length_cons, List.length_nil]
    refine ⟨by omega, by omega, by omega⟩

/-! ## The fully solid cube -/

theorem faceExt {a b : Face} (hx : a.x = b.x) (hy : a.y = b.y) (hz : a.z = b.z) :
    a = b := by
  cases a; cases b
  simp only [Face.mk.injEq]
  exact ⟨hx, hy, hz⟩

theorem init_queue_full0 (c : Chunk) (hN : 1 ≤ c.size)
    (hsolid : ∀ x y z, x < c.size → y < c.size → z < c.size → c.voxels x y z ≠ 0) :
    (∀ f : Face, f ∈ init_queue c 0 ↔ inRange c f ∧ f.x = c.size - 1) ∧
    init_queue c 0 =
      cellsRect ⟨c.size - 1, 0, 0⟩ (expand_direction 0) 0 c.size 0 c.size := by
  have hmem : ∀ f : Face, f ∈ init_queue c 0 ↔ inRange c f ∧ f.x = c.size - 1 := by
    intro g
    rw [mem_init_queue]
    constructor
    · rintro ⟨⟨h1, h2, h3⟩, -, hvis⟩
      refine ⟨⟨h1, h2, h3⟩, ?_⟩
      by_contra hx
      have hvis' : (c.voxels (g.x + 1) g.y g.z == 0) = true := by
        simpa [face_visible, hx] using hvis
      rw [beq_iff_eq] at hvis'
      exact hsolid _ _ _ (by omega) h2 h3 hvis'
    · rintro ⟨⟨h1, h2, h3⟩, hx⟩
      refine ⟨⟨h1, h2, h3⟩, hsolid _ _ _ h1 h2 h3, ?_⟩
      simp [face_visible, hx]
  refine ⟨hmem, ?_⟩
  ext g
  rw [hmem g, mem_cellsRect]
  constructor
  · rintro ⟨⟨h1, h2, h3⟩, hx⟩
    refine ⟨g.z, g.y, by omega, h3, by omega, h2, faceExt ?_ ?_ ?_⟩ <;>
      (simp only [wcell, expand_direction]; omega)
  · rintro ⟨w, h, -, hw, -, hh, rfl⟩
    refine ⟨⟨?_, ?_, ?_⟩, ?_⟩ <;>
      (simp only [wcell, expand_direction, inRange]; omega)

theorem init_queue_full1 (c : Chunk) (hN : 1 ≤ c.size)
    (hsolid : ∀ x y z, x < c.size → y < c.size → z < c.size → c.voxels x y z ≠ 0) :
    (∀ f : Face, f ∈ init_queue c 1 ↔ inRange c f ∧ f.x = 0) ∧
    init_queue c 1 =
      cellsRect ⟨0, 0, 0⟩ (expand_direction 1) 0 c.size 0 c.size := by
  have hmem : ∀ f : Face, f ∈ init_queue c 1 ↔ inRange c f ∧ f.x = 0 := by
    intro g
    rw [mem_init_queue]
    constructor
    · rintro ⟨⟨h1, h2, h3⟩, -, hvis⟩
      refine ⟨⟨h1, h2, h3⟩, ?_⟩
      by_contra hx
      have hvis' : (c.voxels (g.x - 1) g.y g.z == 0) = true := by
        simpa [face_visible, hx] using hvis
      rw [beq_iff_eq] at hvis'
      exact hsolid _ _ _ (by omega) h2 h3 hvis'
    · rintro ⟨⟨h1, h2, h3⟩, hx⟩
      refine ⟨⟨h1, h2, h3⟩, hsolid _ _ _ h1 h2 h3, ?_⟩
      simp [face_visible, hx]
  refine ⟨hmem, ?_⟩
  ext g
  rw [hmem g, mem_cellsRect]
  constructor
  · rintro ⟨⟨h1, h2, h3⟩, hx⟩
    refine ⟨g.z, g.y, by omega, h3, by omega, h2, faceExt ?_ ?_ ?_⟩ <;>
      (simp only [wcell, expand_direction]; omega)
  · rintro ⟨w, h, -, hw, -, hh, rfl⟩
    refine ⟨⟨?_, ?_, ?_⟩, ?_⟩ <;>
      (simp only [wcell, expand_direction, inRange]; omega)

theorem init_queue_full2 (c : Chunk) (hN : 1 ≤ c.size)
    (hsolid : ∀ x y z, x < c.size → y < c.size → z < c.size → c.voxels x y z ≠ 0) :
    (∀ f : Face, f ∈ init_queue c 2 ↔ inRange c f ∧ f.y = c.size - 1) ∧
    init_queue c 2 =
      cellsRect ⟨0, c.size - 1, 0⟩ (expand_direction 2) 0 c.size 0 c.size := by
  have hmem : ∀ f : Face, f ∈ init_queue c 2 ↔ inRange c f ∧ f.y = c.size - 1 := by
    intro g
    rw [mem_init_queue]
    constructor
    · rintro ⟨⟨h1, h2, h3⟩, -, hvis⟩
      refine ⟨⟨h1, h2, h3⟩, ?_⟩
      by_contra hx
      have hvis' : (c.voxels g.x (g.y + 1) g.z == 0) = true := by
        simpa [face_visible, hx] using hvis
      rw [beq_iff_eq] at hvis'
      exact hsolid _ _ _ h1 (by omega) h3 hvis'
    · rintro ⟨⟨h1, h2, h3⟩, hx⟩
      refine ⟨⟨h1, h2, h3⟩, hsolid _ _ _ h1 h2 h3, ?_⟩
      simp [face_visible, hx]
  refine ⟨hmem, ?_⟩
  ext g
  rw [hmem g, mem_cellsRect]
  constructor
  · rintro ⟨⟨h1, h2, h3⟩, hx⟩
    refine ⟨g.x, g.z, by omega, h1, by omega, h3, faceExt ?_ ?_ ?_⟩ <;>
      (simp only [wcell, expand_direction]; omega)
  · rintro ⟨w, h, -, hw, -, hh, rfl⟩
    refine ⟨⟨?_, ?_, ?_⟩, ?_⟩ <;>
      (simp only [wcell, expand_direction, inRange]; omega)

theorem init_queue_full3 (c : Chunk) (hN : 1 ≤ c.size)
    (hsolid : ∀ x y z, x < c.size → y < c.size → z < c.size → c.voxels x y z ≠ 0) :
    (∀ f : Face, f ∈ init_queue c 3 ↔ inRange c f ∧ f.y = 0) ∧
    init_queue c 3 =
      cellsRect ⟨0, 0, 0⟩ (expand_direction 3) 0 c.size 0 c.size := by
  have hmem : ∀ f : Face, f ∈ init_queue c 3 ↔ inRange c f ∧ f.y = 0 := by
    intro g
    rw [mem_init_queue]
    constructor
    · rintro ⟨⟨h1, h2, h3⟩, -, hvis⟩
      refine ⟨⟨h1, h2, h3⟩, ?_⟩
      by_contra hx
      have hvis' : (c.voxels g.x (g.y - 1) g.z == 0) = true := by
        simpa [face_visible, hx] using hvis
      rw [beq_iff_eq] at hvis'
      exact hsolid _ _ _ h1 (by omega) h3 hvis'
    · rintro ⟨⟨h1, h2, h3⟩, hx⟩
      refine ⟨⟨h1, h2, h3⟩, hsolid _ _ _ h1 h2 h3, ?_⟩
      simp [face_visible, hx]
  refine ⟨hmem, ?_⟩
  ext g
  rw [hmem g, mem_cellsRect]
  constructor
  · rintro ⟨⟨h1, h2, h3⟩, hx⟩
    refine ⟨g.x, g.z, by omega, h1, by omega, h3, faceExt ?_ ?_ ?_⟩ <;>
      (simp only [wcell, expand_direction]; omega)
  · rintro ⟨w, h, -, hw, -, hh, rfl⟩
    refine ⟨⟨?_, ?_, ?_⟩, ?_⟩ <;>
      (simp only [wcell, expand_direction, inRange]; omega)

theorem init_queue_full4 (c : Chunk) (hN : 1 ≤ c.size)
    (hsolid : ∀ x y z, x < c.size → y < c.size → z < c.size → c.voxels x y z ≠ 0) :
    (∀ f : Face, f ∈ init_queue c 4 ↔ inRange c f ∧ f.z = c.size - 1) ∧
    init_queue c 4 =
      cellsRect ⟨0, 0, c.size - 1⟩ (expand_direction 4) 0 c.size 0 c.size := by
  have hmem : ∀ f : Face, f ∈ init_queue c 4 ↔ inRange c f ∧ f.z = c.size - 1 := by
    intro g
    rw [mem_init_queue]
    constructor
    · rintro ⟨⟨h1, h2, h3⟩, -, hvis⟩
      refine ⟨⟨h1, h2, h3⟩, ?_⟩
      by_contra hx
      have hvis' : (c.voxels g.x g.y (g.z + 1) == 0) = true := by
        simpa [face_visible, hx] using hvis
      rw [beq_iff_eq] at hvis'
      exact hsolid _ _ _ h1 h2 (by omega) hvis'
    · rintro ⟨⟨h1, h2, h3⟩, hx⟩
      refine ⟨⟨h1, h2, h3⟩, hsolid _ _ _ h1 h2 h3, ?_⟩
      simp [face_visible, hx]
  refine ⟨hmem, ?_⟩
  ext g
  rw [hmem g, mem_cellsRect]
  constructor
  · rintro ⟨⟨h1, h2, h3⟩, hx⟩
    refine ⟨g.x, g.y, by omega, h1, by omega, h2, faceExt ?_ ?_ ?_⟩ <;>
      (simp only [wcell, expand_direction]; omega)
  · rintro ⟨w, h, -, hw, -, hh, rfl⟩
    refine ⟨⟨?_, ?_, ?_⟩, ?_⟩ <;>
      (simp only [wcell, expand_direction, inRange]; omega)

theorem init_queue_full5 (c : Chunk) (hN : 1 ≤ c.size)
    (hsolid : ∀ x y z, x < c.size → y < c.size → z < c.size → c.voxels x y z ≠ 0) :
    (∀ f : Face, f ∈ init_queue c 5 ↔ inRange c f ∧ f.z = 0) ∧
    init_queue c 5 =
      cellsRect ⟨0, 0, 0⟩ (expand_direction 5) 0 c.size 0 c.size := by
  have hmem : ∀ f : Face, f ∈ init_queue c 5 ↔ inRange c f ∧ f.z = 0 := by
    intro g
    rw [mem_init_queue]
    constructor
    · rintro ⟨⟨h1, h2, h3⟩, -, hvis⟩
      refine ⟨⟨h1, h2, h3⟩, ?_⟩
      by_contra hx
      have hvis' : (c.voxels g.x g.y (g.z - 1) == 0) = true := by
        simpa [face_visible, hx] using hvis
      rw [beq_iff_eq] at hvis'
      exact hsolid _ _ _ h1 h2 (by omega) hvis'
    · rintro ⟨⟨h1, h2, h3⟩, hx⟩
      refine ⟨⟨h1, h2, h3⟩, hsolid _ _ _ h1 h2 h3, ?_⟩
      simp [face_visible, hx]
  refine ⟨hmem, ?_⟩
  ext g
  rw [hmem g, mem_cellsRect]
  constructor
  · rintro ⟨⟨h1, h2, h3⟩, hx⟩
    refine ⟨g.x, g.y, by omega, h1, by omega, h2, faceExt ?_ ?_ ?_⟩ <;>
      (simp only [wcell, expand_direction]; omega)
  · rintro ⟨w, h, -, hw, -, hh, rfl⟩
    refine ⟨⟨?_, ?_, ?_⟩, ?_⟩ <;>
      (simp only [wcell, expand_direction, inRange]; omega)

/-! ## Winding of the emitted triangles -/

theorem getD_mem {α : Type} (l : List α) (i : Nat) (d : α) (h : i < l.length) :
    l.getD i d ∈ l := by
  rw [List.getD_eq_getElem l d h]
  exact List.getElem_mem h

theorem getD_append_at {α : Type} (l l' : List α) (p i : Nat) (d : α)
    (h : p = l.length + i) : (l ++ l').getD p d = l'.getD i d := by
  subst h
  rw [List.getD_append_right l l' d _ (Nat.le_add_right _ _)]
  congr 1
  omega

theorem quad_indices_mem {qd : Quad} {b i : Nat} (h : i ∈ quad_indices qd b) :
    i < b + 4 := by
  unfold quad_indices at h
  by_cases hc : (qd.direction = 0 ∨ qd.direction = 2 ∨ qd.direction = 5)
  · simp [hc, u32] at h
    omega
  · simp [hc, u32] at h
    omega

theorem u32_add_small {p b : Nat} (hp : p ≤ 3) (hb : b + 4 ≤ 4294967296) :
    u32 (p + u32 b) = p + b := by
  unfold u32
  omega

theorem tri_ccw_push {m0 : MeshData} {qd : Quad} {k0 j : Nat}
    (hv : m0.vertices.length = 4 * k0) (hi : m0.indices.length = 6 * k0)
    (hn : m0.normals.length = 4 * k0)
    (hbound : ∀ i ∈ m0.indices, i < 4 * k0)
    (hj : j < k0) (h : tri_ccw m0 j) : tri_ccw (mesh_push m0 qd) j := by
  have hidx : ∀ i, i < 6 * k0 →
      (mesh_push m0 qd).indices.getD i 0 = m0.indices.getD i 0 := by
    intro i hi6
    unfold mesh_push
    dsimp only
    exact List.getD_append _ _ _ _ (by omega)
  have hval : ∀ i, i < 6 * k0 → m0.indices.getD i 0 < 4 * k0 := by
    intro i hi6
    exact hbound _ (getD_mem _ _ _ (by omega))
  have hvtx : ∀ p, p < 4 * k0 →
      (mesh_push m0 qd).vertices.getD p ⟨0, 0, 0⟩ = m0.vertices.getD p ⟨0, 0, 0⟩ := by
    intro p hp
    unfold mesh_push
    dsimp only
    exact List.getD_append _ _ _ _ (by omega)
  have hnrm : ∀ p, p < 4 * k0 →
      (mesh_push m0 qd).normals.getD p (0, 0, 0) = m0.normals.getD p (0, 0, 0) := by
    intro p hp
    unfold mesh_push
    dsimp only
    exact List.getD_append _ _ _ _ (by omega)
  unfold tri_ccw at h ⊢
  rw [hidx (6 * j) (by omega), hidx (6 * j + 1) (by omega), hidx (6 * j + 2) (by omega),
      hidx (6 * j + 3) (by omega), hidx (6 * j + 4) (by omega), hidx (6 * j + 5) (by omega),
      hvtx _ (hval (6 * j) (by omega)), hvtx _ (hval (6 * j + 1) (by omega)),
      hvtx _ (hval (6 * j + 2) (by omega)), hvtx _ (hval (6 * j + 3) (by omega)),
      hvtx _ (hval (6 * j + 4) (by omega)), hvtx _ (hval (6 * j + 5) (by omega)),
      hnrm _ (hval (6 * j) (by omega))]
  exact h

theorem tri_ccw_new {m0 : MeshData} {qd : Quad} {k0 : Nat}
    (hd : qd.direction < 6) (hW : 1 ≤ qd.width) (hH : 1 ≤ qd.height)
    (hv : m0.vertices.length = 4 * k0) (hi : m0.indices.length = 6 * k0)
    (hn : m0.normals.length = 4 * k0) (hsz : 4 * k0 + 4 ≤ 4294967296) :
    tri_ccw (mesh_push m0 qd) k0 := by
  obtain ⟨f, W, H, dd⟩ := qd
  dsimp only at hd hW hH
  have hW' : (0 : Int) < (W : Int) := by exact_mod_cast Nat.lt_of_lt_of_le Nat.zero_lt_one hW
  have hH' : (0 : Int) < (H : Int) := by exact_mod_cast Nat.lt_of_lt_of_le Nat.zero_lt_one hH
  unfold tri_ccw mesh_push
  dsimp only
  rw [getD_append_at m0.indices _ (6 * k0) 0 _ (by omega),
      getD_append_at m0.indices _ (6 * k0 + 1) 1 _ (by omega),
      getD_append_at m0.indices _ (6 * k0 + 2) 2 _ (by omega),
      getD_append_at m0.indices _ (6 * k0 + 3) 3 _ (by omega),
      getD_append_at m0.indices _ (6 * k0 + 4) 4 _ (by omega),
      getD_append_at m0.indices _ (6 * k0 + 5) 5 _ (by omega)]
  have e0 : u32 (0 + u32 m0.vertices.length) = 0 + m0.vertices.length := by
    unfold u32; omega
  have e1 : u32 (1 + u32 m0.vertices.length) = 1 + m0.vertices.length := by
    unfold u32; omega
  have e2 : u32 (2 + u32 m0.vertices.length) = 2 + m0.vertices.length := by
    unfold u32; omega
  have e3 : u32 (3 + u32 m0.vertices.length) = 3 + m0.vertices.length := by
    unfold u32; omega
  by_cases hrev : (dd = 0 ∨ dd = 2 ∨ dd = 5)
  · rw [show quad_indices ⟨f, W, H, dd⟩ m0.vertices.length =
        [0 + m0.vertices.length, 3 + m0.vertices.length, 2 + m0.vertices.length,
         2 + m0.vertices.length, 1 + m0.vertices.length, 0 + m0.vertices.length] by
      unfold quad_indices
      dsimp only
      rw [if_pos hrev]
      show [u32 (0 + u32 m0.vertices.length), u32 (3 + u32 m0.vertices.length),
            u32 (2 + u32 m0.vertices.length), u32 (2 + u32 m0.vertices.length),
            u32 (1 + u32 m0.vertices.length), u32 (0 + u32 m0.vertices.length)] = _
      rw [e0, e1, e2, e3]]
    rw [show ([0 + m0.vertices.length, 3 + m0.vertices.length, 2 + m0.vertices.length,
         2 + m0.vertices.length, 1 + m0.vertices.length, 0 + m0.vertices.length].getD 0 0)
          = 0 + m0.vertices.length from rfl,
        show ([0 + m0.vertices.length, 3 + m0.vertices.length, 2 + m0.vertices.length,
         2 + m0.vertices.length, 1 + m0.vertices.length, 0 + m0.vertices.length].getD 1 0)
          = 3 + m0.vertices.length from rfl,
        show ([0 + m0.vertices.length, 3 + m0.vertices.length, 2 + m0.vertices.length,
         2 + m0.vertices.length, 1 + m0.vertices.length, 0 + m0.vertices.length].getD 2 0)
          = 2 + m0.vertices.length from rfl,
        show ([0 + m0.vertices.length, 3 + m0.vertices.length, 2 + m0.vertices.length,
         2 + m0.vertices.length, 1 + m0.vertices.length, 0 + m0.vertices.length].getD 3 0)
          = 2 + m0.vertices.length from rfl,
        show ([0 + m0.vertices.length, 3 + m0.vertices.length, 2 + m0.vertices.length,
         2 + m0.vertices.length, 1 + m0.vertices.length, 0 + m0.vertices.length].getD 4 0)
          = 1 + m0.vertices.length from rfl,
        show ([0 + m0.vertices.length, 3 + m0.vertices.length, 2 + m0.vertices.length,
         2 + m0.vertices.length, 1 + m0.vertices.length, 0 + m0.vertices.length].getD 5 0)
          = 0 + m0.vertices.length from rfl]
    rw [getD_append_at m0.vertices _ (0 + m0.vertices.length) 0 _ (by omega),
        getD_append_at m0.vertices _ (3 + m0.vertices.length) 3 _ (by omega),
        getD_append_at m0.vertices _ (2 + m0.vertices.length) 2 _ (by omega),
        getD_append_at m0.vertices _ (1 + m0.vertices.length) 1 _ (by omega),
        getD_append_at m0.normals _ (0 + m0.vertices.length) 0 _ (by omega)]
    rw [show (quad_vertices ⟨f, W, H, dd⟩).getD 0 ⟨0, 0, 0⟩ =
          faceAdd (wcell f (expand_direction dd) 0 0) (quad_extra dd) from rfl,
        show (quad_vertices ⟨f, W, H, dd⟩).getD 1 ⟨0, 0, 0⟩ =
          faceAdd (wcell f (expand_direction dd) W 0) (quad_extra dd) from rfl,
        show (quad_vertices ⟨f, W, H, dd⟩).getD 2 ⟨0, 0, 0⟩ =
          faceAdd (wcell f (expand_direction dd) W H) (quad_extra dd) from rfl,
        show (quad_vertices ⟨f, W, H, dd⟩).getD 3 ⟨0, 0, 0⟩ =
          faceAdd (wcell f (expand_direction dd) 0 H) (quad_extra dd) from rfl,
        show ([quad_normal dd, quad_normal dd, quad_normal dd, quad_normal dd].getD 0
          (0, 0, 0)) = quad_normal dd from rfl]
    rcases hrev with rfl | rfl | rfl <;>
      (constructor <;>
        (simp only [wcell, expand_direction, quad_extra, faceAdd, esub, cross, dot3,
           quad_normal]
         push_cast
         ring_nf
         nlinarith [mul_pos hW' hH']))
  · rw [show quad_indices ⟨f, W, H, dd⟩ m0.vertices.length =
        [0 + m0.vertices.length, 1 + m0.vertices.length, 2 + m0.vertices.length,
         2 + m0.vertices.length, 3 + m0.vertices.length, 0 + m0.vertices.length] by
      unfold quad_indices
      dsimp only
      rw [if_neg hrev]
      show [u32 (0 + u32 m0.vertices.length), u32 (1 + u32 m0.vertices.length),
            u32 (2 + u32 m0.vertices.length), u32 (2 + u32 m0.vertices.length),
            u32 (3 + u32 m0.vertices.length), u32 (0 + u32 m0.vertices.length)] = _
      rw [e0, e1, e2, e3]]
    rw [show ([0 + m0.vertices.length, 1 + m0.vertices.length, 2 + m0.vertices.length,
         2 + m0.vertices.length, 3 + m0.vertices.length, 0 + m0.vertices.length].getD 0 0)
          = 0 + m0.vertices.length from rfl,
        show ([0 + m0.vertices.length, 1 + m0.vertices.length, 2 + m0.vertices.length,
         2 + m0.vertices.length, 3 + m0.vertices.length, 0 + m0.vertices.length].getD 1 0)
          = 1 + m0.vertices.length from rfl,
        show ([0 + m0.vertices.length, 1 + m0.vertices.length, 2 + m0.vertices.length,
         2 + m0.vertices.length, 3 + m0.vertices.length, 0 + m0.vertices.length].getD 2 0)
          = 2 + m0.vertices.length from rfl,
        show ([0 + m0.vertices.length, 1 + m0.vertices.length, 2 + m0.vertices.length,
         2 + m0.vertices.length, 3 + m0.vertices.length, 0 + m0.vertices.length].getD 3 0)
          = 2 + m0.vertices.length from rfl,
        show ([0 + m0.vertices.length, 1 + m0.vertices.length, 2 + m0.vertices.length,
         2 + m0.vertices.length, 3 + m0.vertices.length, 0 + m0.vertices.length].getD 4 0)
          = 3 + m0.vertices.length from rfl,
        show ([0 + m0.vertices.length, 1 + m0.vertices.length, 2 + m0.vertices.length,
         2 + m0.vertices.length, 3 + m0.vertices.length, 0 + m0.vertices.length].getD 5 0)
          = 0 + m0.vertices.length from rfl]
    rw [getD_append_at m0.vertices _ (0 + m0.vertices.length) 0 _ (by omega),
        getD_append_at m0.vertices _ (1 + m0.vertices.length) 1 _ (by omega),
        getD_append_at m0.vertices _ (2 + m0.vertices.length) 2 _ (by omega),
        getD_append_at m0.vertices _ (3 + m0.vertices.length) 3 _ (by omega),
        getD_append_at m0.normals _ (0 + m0.vertices.length) 0 _ (by omega)]
    rw [show (quad_vertices ⟨f, W, H, dd⟩).getD 0 ⟨0, 0, 0⟩ =
          faceAdd (wcell f (expand_direction dd) 0 0) (quad_extra dd) from rfl,
        show (quad_vertices ⟨f, W, H, dd⟩).getD 1 ⟨0, 0, 0⟩ =
          faceAdd (wcell f (expand_direction dd) W 0) (quad_extra dd) from rfl,
        show (quad_vertices ⟨f, W, H, dd⟩).getD 2 ⟨0, 0, 0⟩ =
          faceAdd (wcell f (expand_direction dd) W H) (quad_extra dd) from rfl,
        show (quad_vertices ⟨f, W, H, dd⟩).getD 3 ⟨0, 0, 0⟩ =
          faceAdd (wcell f (expand_direction dd) 0 H) (quad_extra dd) from rfl,
        show ([quad_normal dd, quad_normal dd, quad_normal dd, quad_normal dd].getD 0
          (0, 0, 0)) = quad_normal dd from rfl]
    interval_cases dd <;>
      first
        | exact absurd (by omega) hrev
        | (constructor <;>
            (simp only [wcell, expand_direction, quad_extra, faceAdd, esub, cross, dot3,
               quad_normal]
             push_cast
             ring_nf
             nlinarith [mul_pos hW' hH']))

theorem greedy_mesh_ccw_aux (qs : List Quad)
    (hqs : ∀ qd ∈ qs, qd.direction < 6 ∧ 1 ≤ qd.width ∧ 1 ≤ qd.height) :
    ∀ (m0 : MeshData) (k0 : Nat),
      m0.vertices.length = 4 * k0 → m0.indices.length = 6 * k0 →
      m0.normals.length = 4 * k0 →
      4 * (k0 + qs.length) ≤ 4294967296 →
      (∀ i ∈ m0.indices, i < 4 * k0) →
      (∀ j, j < k0 → tri_ccw m0 j) →
      (∀ i ∈ (qs.foldl mesh_push m0).indices, i < 4 * (k0 + qs.length)) ∧
      (∀ j, j < k0 + qs.length → tri_ccw (qs.foldl mesh_push m0) j) := by
  induction qs with
  | nil =>
    intro m0 k0 hv hi hn hsz hbound hccw
    simp only [List.foldl_nil, List.length_nil, Nat.add_zero]
    exact ⟨hbound, hccw⟩
  | cons qd qs ih =>
    intro m0 k0 hv hi hn hsz hbound hccw
    rw [List.length_cons] at hsz
    obtain ⟨hd, hW, hH⟩ := hqs qd (List.mem_cons_self _ _)
    rw [List.foldl_cons]
    have hv1 : (mesh_push m0 qd).vertices.length = 4 * (k0 + 1) := by
      unfold mesh_push
      dsimp only
      rw [List.length_append, hv, quad_vertices_length]
      omega
    have hi1 : (mesh_push m0 qd).indices.length = 6 * (k0 + 1) := by
      unfold mesh_push
      dsimp only
      rw [List.length_append, hi, quad_indices_length]
      omega
    have hn1 : (mesh_push m0 qd).normals.length = 4 * (k0 + 1) := by
      unfold mesh_push
      dsimp only
      rw [List.length_append, hn]
      rfl
    have hbound1 : ∀ i ∈ (mesh_push m0 qd).indices, i < 4 * (k0 + 1) := by
      intro i hmem
      unfold mesh_push at hmem
      dsimp only at hmem
      rw [List.mem_append] at hmem
      rcases hmem with h | h
      · have := hbound i h
        omega
      · have := quad_indices_mem h
        omega
    have hccw1 : ∀ j, j < k0 + 1 → tri_ccw (mesh_push m0 qd) j := by
      intro j hj
      rcases Nat.lt_or_ge j k0 with h | h
      · exact tri_ccw_push hv hi hn hbound h (hccw j h)
      · have hjeq : j = k0 := by omega
        subst hjeq
        exact tri_ccw_new hd hW hH hv hi hn (by omega)
    have hres := ih (fun q hq => hqs q (List.mem_cons_of_mem _ hq))
      (mesh_push m0 qd) (k0 + 1) hv1 hi1 hn1 (by omega) hbound1 hccw1
    constructor
    · intro i hmem
      have := hres.1 i hmem
      simp only [List.length_cons]
      omega
    · intro j hj
      apply hres.2
      simp only [List.length_cons] at hj
      omega

theorem merge_direction_cover (c : Chunk) (d : Nat) (hd : d < 6) :
    ((merge_direction c d).flatMap quad_cells_list).Nodup ∧
    ((merge_direction c d).flatMap quad_cells_list).toFinset = init_queue c d ∧
    ∀ qd ∈ merge_direction c d,
      qd.direction = d ∧ 1 ≤ qd.width ∧ 1 ≤ qd.height ∧ qd.face ∈ init_queue c d := by
  unfold merge_direction
  exact merge_pass_go_cover c d hd _ _ _ (Nat.lt_succ_self _)
    (fun g hg => hg) (fun g _ => lexLe_zero g)

theorem greedy_quads_meta (c : Chunk) :
    ∀ qd ∈ greedy_quads c, qd.direction < 6 ∧ 1 ≤ qd.width ∧ 1 ≤ qd.height ∧
      qd.face ∈ init_queue c qd.direction := by
  intro qd hqd
  have hcase : ∀ d, d < 6 → qd ∈ merge_direction c d →
      qd.direction < 6 ∧ 1 ≤ qd.width ∧ 1 ≤ qd.height ∧
        qd.face ∈ init_queue c qd.direction := by
    intro d hd hmem
    obtain ⟨hdir, hw, hh, hface⟩ := (merge_direction_cover c d hd).2.2 qd hmem
    rw [hdir]
    exact ⟨hd, hw, hh, hface⟩
  unfold greedy_quads at hqd
  simp only [List.mem_append] at hqd
  rcases hqd with ((((h | h) | h) | h) | h) | h <;> exact hcase _ (by omega) h

theorem merge_direction_full0 (c : Chunk) (hN : 1 ≤ c.size)
    (hsolid : ∀ x y z, x < c.size → y < c.size → z < c.size → c.voxels x y z ≠ 0) :
    merge_direction c 0 = [⟨⟨c.size - 1, 0, 0⟩, c.size, c.size, 0⟩] := by
  unfold merge_direction
  rw [(init_queue_full0 c hN hsolid).2]
  apply merge_pass_rect c (by omega) _ (by omega) (by omega)
  · intro g hg
    rw [mem_cellsRect] at hg
    obtain ⟨w, h, -, hw, -, hh, rfl⟩ := hg
    simp only [wcell, expand_direction, inRange]
    omega
  · intro g hg
    rw [mem_cellsRect] at hg
    obtain ⟨w, h, -, hw, -, hh, rfl⟩ := hg
    simp [face_visible, wcell, expand_direction]

theorem merge_direction_full1 (c : Chunk) (hN : 1 ≤ c.size)
    (hsolid : ∀ x y z, x < c.size → y < c.size → z < c.size → c.voxels x y z ≠ 0) :
    merge_direction c 1 = [⟨⟨0, 0, 0⟩, c.size, c.size, 1⟩] := by
  unfold merge_direction
  rw [(init_queue_full1 c hN hsolid).2]
  apply merge_pass_rect c (by omega) _ (by omega) (by omega)
  · intro g hg
    rw [mem_cellsRect] at hg
    obtain ⟨w, h, -, hw, -, hh, rfl⟩ := hg
    simp only [wcell, expand_direction, inRange]
    omega
  · intro g hg
    rw [mem_cellsRect] at hg
    obtain ⟨w, h, -, hw, -, hh, rfl⟩ := hg
    simp [face_visible, wcell, expand_direction]

theorem merge_direction_full2 (c : Chunk) (hN : 1 ≤ c.size)
    (hsolid : ∀ x y z, x < c.size → y < c.size → z < c.size → c.voxels x y z ≠ 0) :
    merge_direction c 2 = [⟨⟨0, c.size - 1, 0⟩, c.size, c.size, 2⟩] := by
  unfold merge_direction
  rw [(init_queue_full2 c hN hsolid).2]
  apply merge_pass_rect c (by omega) _ (by omega) (by omega)
  · intro g hg
    rw [mem_cellsRect] at hg
    obtain ⟨w, h, -, hw, -, hh, rfl⟩ := hg
    simp only [wcell, expand_direction, inRange]
    omega
  · intro g hg
    rw [mem_cellsRect] at hg
    obtain ⟨w, h, -, hw, -, hh, rfl⟩ := hg
    simp [face_visible, wcell, expand_direction]

theorem merge_direction_full3 (c : Chunk) (hN : 1 ≤ c.size)
    (hsolid : ∀ x y z, x < c.size → y < c.size → z < c.size → c.voxels x y z ≠ 0) :
    merge_direction c 3 = [⟨⟨0, 0, 0⟩, c.size, c.size, 3⟩] := by
  unfold merge_direction
  rw [(init_queue_full3 c hN hsolid).2]
  apply merge_pass_rect c (by omega) _ (by omega) (by omega)
  · intro g hg
    rw [mem_cellsRect] at hg
    obtain ⟨w, h, -, hw, -, hh, rfl⟩ := hg
    simp only [wcell, expand_direction, inRange]
    omega
  · intro g hg
    rw [mem_cellsRect] at hg
    obtain ⟨w, h, -, hw, -, hh, rfl⟩ := hg
    simp [face_visible, wcell, expand_direction]

theorem merge_direction_full4 (c : Chunk) (hN : 1 ≤ c.size)
    (hsolid : ∀ x y z, x < c.size → y < c.size → z < c.size → c.voxels x y z ≠ 0) :
    merge_direction c 4 = [⟨⟨0, 0, c.size - 1⟩, c.size, c.size, 4⟩] := by
  unfold merge_direction
  rw [(init_queue_full4 c hN hsolid).2]
  apply merge_pass_rect c (by omega) _ (by omega) (by omega)
  · intro g hg
    rw [mem_cellsRect] at hg
    obtain ⟨w, h, -, hw, -, hh, rfl⟩ := hg
    simp only [wcell, expand_direction, inRange]
    omega
  · intro g hg
    rw [mem_cellsRect] at hg
    obtain ⟨w, h, -, hw, -, hh, rfl⟩ := hg
    simp [face_visible, wcell, expand_direction]

theorem merge_direction_full5 (c : Chunk) (hN : 1 ≤ c.size)
    (hsolid : ∀ x y z, x < c.size → y < c.size → z < c.size → c.voxels x y z ≠ 0) :
    merge_direction c 5 = [⟨⟨0, 0, 0⟩, c.size, c.size, 5⟩] := by
  unfold merge_direction
  rw [(init_queue_full5 c hN hsolid).2]
  apply merge_pass_rect c (by omega) _ (by omega) (by omega)
  · intro g hg
    rw [mem_cellsRect] at hg
    obtain ⟨w, h, -, hw, -, hh, rfl⟩ := hg
    simp only [wcell, expand_direction, inRange]
    omega
  · intro g hg
    rw [mem_cellsRect] at hg
    obtain ⟨w, h, -, hw, -, hh, rfl⟩ := hg
    simp [face_visible, wcell, expand_direction]

theorem greedy_quads_full (c : Chunk) (hN : 1 ≤ c.size)
    (hsolid : ∀ x y z, x < c.size → y < c.size → z < c.size → c.voxels x y z ≠ 0) :
    greedy_quads c =
      [⟨⟨c.size - 1, 0, 0⟩, c.size, c.size, 0⟩, ⟨⟨0, 0, 0⟩, c.size, c.size, 1⟩,
       ⟨⟨0, c.size - 1, 0⟩, c.size, c.size, 2⟩, ⟨⟨0, 0, 0⟩, c.size, c.size, 3⟩,
       ⟨⟨0, 0, c.size - 1⟩, c.size, c.size, 4⟩, ⟨⟨0, 0, 0⟩, c.size, c.size, 5⟩] := by
  unfold greedy_quads
  rw [merge_direction_full0 c hN hsolid, merge_direction_full1 c hN hsolid,
      merge_direction_full2 c hN hsolid, merge_direction_full3 c hN hsolid,
      merge_direction_full4 c hN hsolid, merge_direction_full5 c hN hsolid]
  rfl

/-! ## The pass never panics -/

theorem face_visibleP_eq {f : Face} {d : Nat} {c : Chunk} (hd : d < 6)
    (hin : inRange c f) : face_visibleP f d c = some (face_visible f d c) := by
  obtain ⟨h1, h2, h3⟩ := hin
  interval_cases d
  · by_cases hb : f.x = c.size - 1
    · simp [face_visibleP, face_visible, hb]
    · have hc1 : f.x + 1 < c.size := by omega
      simp [face_visibleP, face_visible, vreadP, hb, hc1, h2, h3]
  · by_cases hb : f.x = 0
    · simp [face_visibleP, face_visible, hb]
    · have hc1 : f.x - 1 < c.size := by omega
      simp [face_visibleP, face_visible, vreadP, hb, hc1, h2, h3]
  · by_cases hb : f.y = c.size - 1
    · simp [face_visibleP, face_visible, hb]
    · have hc1 : f.y + 1 < c.size := by omega
      simp [face_visibleP, face_visible, vreadP, hb, h1, hc1, h3]
  · by_cases hb : f.y = 0
    · simp [face_visibleP, face_visible, hb]
    · have hc1 : f.y - 1 < c.size := by omega
      simp [face_visibleP, face_visible, vreadP, hb, h1, hc1, h3]
  · by_cases hb : f.z = c.size - 1
    · simp [face_visibleP, face_visible, hb]
    · have hc1 : f.z + 1 < c.size := by omega
      simp [face_visibleP, face_visible, vreadP, hb, h1, h2, hc1]
  · by_cases hb : f.z = 0
    · simp [face_visibleP, face_visible, hb]
    · have hc1 : f.z - 1 < c.size := by omega
      simp [face_visibleP, face_visible, vreadP, hb, h1, h2, hc1]

theorem face_existsP_eq {f : Face} {d : Nat} {q : Finset Face} {c : Chunk}
    (hd : d < 6) : face_existsP f d q c = some (face_exists f q c) := by
  unfold face_existsP
  rw [if_pos hd]

theorem quad_normalP_eq {d : Nat} (hd : d < 6) :
    quad_normalP d = some (quad_normal d) := by
  interval_cases d <;> rfl

theorem expand_directionP_eq {d : Nat} (hd : d < 6) :
    expand_directionP d = some (expand_direction d) := by
  interval_cases d <;> rfl

theorem next_faceP_eq {q : Finset Face} {c : Chunk} {cursor : Face} {d : Nat}
    (hd : d < 6) : next_faceP q c cursor d = some (next_face q c cursor) := by
  unfold next_faceP
  rw [if_pos hd]

theorem row_allP_eq {c : Chunk} {d h : Nat} {f : Face} {q : Finset Face}
    (hd : d < 6) :
    ∀ ws : List Nat, row_allP h d f q c ws =
      some (ws.all fun w =>
        face_exists (wcell f (expand_direction d) w h) q c &&
        face_visible (wcell f (expand_direction d) w h) d c) := by
  intro ws
  induction ws with
  | nil => rfl
  | cons w ws ih =>
    rw [row_allP, face_existsP_eq hd]
    by_cases he : face_exists (wcell f (expand_direction d) w h) q c = true
    · rw [List.all_cons]
      simp only [Option.bind_eq_bind, Option.some_bind, he, if_true]
      rw [face_visibleP_eq hd (inRange_of_face_exists he)]
      by_cases hv : face_visible (wcell f (expand_direction d) w h) d c = true
      · simp only [Option.some_bind, hv, if_true, ih, Bool.true_and]
      · simp only [Option.some_bind, hv, Bool.not_eq_true] at *
        simp [he, hv]
    · rw [List.all_cons]
      simp only [Bool.not_eq_true] at he
      simp [he]

theorem can_extend_rowP_eq {c : Chunk} {h W d : Nat} {f : Face} {q : Finset Face}
    (hd : d < 6) :
    can_extend_rowP h W d f q c = some (can_extend_row h W d f q c) := by
  unfold can_extend_rowP can_extend_row
  exact row_allP_eq hd _

theorem expand_width_goP_eq {c : Chunk} {d : Nat} {ex : ExpandDirection} {f : Face}
    (hd : d < 6) :
    ∀ fuel q w, expand_width_goP c d ex f fuel q w =
      some (expand_width_go c d ex f fuel q w) := by
  intro fuel
  induction fuel with
  | zero => intro q w; rfl
  | succ m ih =>
    intro q w
    rw [expand_width_goP, expand_width_go, face_existsP_eq hd]
    by_cases he : face_exists (wcell f ex w 0) q c = true
    · simp only [Option.bind_eq_bind, Option.some_bind, he, if_true]
      rw [face_visibleP_eq hd (inRange_of_face_exists he)]
      by_cases hv : face_visible (wcell f ex w 0) d c = true
      · simp only [Option.some_bind, hv, if_true, Bool.and_self, ih]
      · simp only [Option.some_bind, Bool.not_eq_true] at *
        simp [he, hv]
    · simp only [Bool.not_eq_true] at he
      simp [he]

theorem expand_height_goP_eq {c : Chunk} {d : Nat} {f : Face} {W : Nat}
    (hd : d < 6) :
    ∀ fuel q h0, expand_height_goP c d (expand_direction d) f W fuel q h0 =
      some (expand_height_go c d (expand_direction d) f W fuel q h0) := by
  intro fuel
  induction fuel with
  | zero => intro q h0; rfl
  | succ m ih =>
    intro q h0
    rw [expand_height_goP, expand_height_go, can_extend_rowP_eq hd]
    by_cases hr : can_extend_row h0 W d f q c = true
    · simp only [Option.bind_eq_bind, Option.some_bind, hr, if_true, ih]
    · simp only [Bool.not_eq_true] at hr
      simp [hr]

theorem merge_pass_goP_eq {c : Chunk} {d : Nat} (hd : d < 6) :
    ∀ fuel q cursor, merge_pass_goP c d (expand_direction d) fuel q cursor =
      some (merge_pass_go c d fuel q cursor) := by
  intro fuel
  induction fuel with
  | zero => intro q cursor; rfl
  | succ m ih =>
    intro q cursor
    rw [merge_pass_goP, merge_pass_go, next_faceP_eq hd]
    simp only [Option.bind_eq_bind, Option.some_bind]
    cases hnf : next_face q c cursor with
    | none => rfl
    | some face =>
      dsimp only
      have hin := (next_face_some hnf).2.1
      rw [face_visibleP_eq hd hin]
      simp only [Option.some_bind]
      unfold merge_face
      by_cases hv : face_visible face d c = true
      · simp only [hv, if_true]
        unfold expand_width expand_height
        rw [expand_width_goP_eq hd]
        simp only [Option.some_bind]
        rw [expand_height_goP_eq hd]
        simp only [Option.some_bind]
        rw [ih]
        simp only [Option.some_bind]
      · simp only [hv, Bool.false_eq_true, if_false]
        simp only [Bool.not_eq_true] at hv
        simp [hv, ih]

theorem init_queue_goP_eq {c : Chunk} {d : Nat} (hd : d < 6) :
    ∀ (fs : List Face) (q : Finset Face), (∀ f ∈ fs, inRange c f) →
      init_queue_goP c d fs q =
        some (q ∪ (init_queue c d).filter (fun g => g ∈ fs)) := by
  intro fs
  induction fs with
  | nil =>
    intro q _
    rw [init_queue_goP]
    congr 1
    ext g
    simp
  | cons f fs ih =>
    intro q hfs
    rw [init_queue_goP]
    by_cases hz : c.voxels f.x f.y f.z = 0
    · rw [if_pos hz, ih q (fun g hg => hfs g (List.mem_cons_of_mem _ hg))]
      congr 1
      ext g
      simp only [Finset.mem_union, Finset.mem_filter, List.mem_cons]
      constructor
      · rintro (hq | ⟨hi, hmem⟩)
        · exact Or.inl hq
        · exact Or.inr ⟨hi, Or.inr hmem⟩
      · rintro (hq | ⟨hi, rfl | hmem⟩)
        · exact Or.inl hq
        · exact absurd (mem_init_queue.1 hi).2.1 (by simp [hz])
        · exact Or.inr ⟨hi, hmem⟩
    · rw [if_neg hz, face_visibleP_eq hd (hfs f (List.mem_cons_self _ _))]
      simp only [Option.bind_eq_bind, Option.some_bind]
      by_cases hv : face_visible f d c = true
      · rw [if_pos hv, ih _ (fun g hg => hfs g (List.mem_cons_of_mem _ hg))]
        congr 1
        have hfi : f ∈ init_queue c d :=
          mem_init_queue.2 ⟨hfs f (List.mem_cons_self _ _), hz, hv⟩
        ext g
        simp only [Finset.mem_union, Finset.mem_insert, Finset.mem_filter, List.mem_cons]
        constructor
        · rintro ((rfl | hq) | ⟨hi, hmem⟩)
          · exact Or.inr ⟨hfi, Or.inl rfl⟩
          · exact Or.inl hq
          · exact Or.inr ⟨hi, Or.inr hmem⟩
        · rintro (hq | ⟨hi, rfl | hmem⟩)
          · exact Or.inl (Or.inr hq)
          · exact Or.inl (Or.inl rfl)
          · exact Or.inr ⟨hi, hmem⟩
      · rw [if_neg hv, ih q (fun g hg => hfs g (List.mem_cons_of_mem _ hg))]
        congr 1
        ext g
        simp only [Finset.mem_union, Finset.mem_filter, List.mem_cons]
        constructor
        · rintro (hq | ⟨hi, hmem⟩)
          · exact Or.inl hq
          · exact Or.inr ⟨hi, Or.inr hmem⟩
        · rintro (hq | ⟨hi, rfl | hmem⟩)
          · exact Or.inl hq
          · exact absurd (mem_init_queue.1 hi).2.2 (by simp [hv])
          · exact Or.inr ⟨hi, hmem⟩

theorem init_queueP_eq {c : Chunk} {d : Nat} (hd : d < 6) :
    init_queueP c d = some (init_queue c d) := by
  unfold init_queueP
  rw [init_queue_goP_eq hd (lexFaces c.size) ∅ (fun g hg => mem_lexFaces.1 hg)]
  congr 1
  ext g
  simp only [Finset.empty_union, Finset.mem_filter, mem_lexFaces]
  constructor
  · rintro ⟨hi, -⟩
    exact hi
  · intro hi
    exact ⟨hi, (mem_init_queue.1 hi).1⟩

theorem merge_directionP_eq {c : Chunk} {d : Nat} (hd : d < 6) :
    merge_directionP c d = some (merge_direction c d) := by
  unfold merge_directionP merge_direction
  rw [init_queueP_eq hd]
  simp only [Option.bind_eq_bind, Option.some_bind]
  rw [expand_directionP_eq hd]
  simp only [Option.some_bind]
  exact merge_pass_goP_eq hd _ _ _

theorem greedy_quadsP_eq (c : Chunk) :
    greedy_quadsP c = some (greedy_quads c) := by
  unfold greedy_quadsP greedy_quads
  rw [merge_directionP_eq (by omega : (0:Nat) < 6),
      merge_directionP_eq (by omega : (1:Nat) < 6),
      merge_directionP_eq (by omega : (2:Nat) < 6),
      merge_directionP_eq (by omega : (3:Nat) < 6),
      merge_directionP_eq (by omega : (4:Nat) < 6),
      merge_directionP_eq (by omega : (5:Nat) < 6)]
  simp only [Option.bind_eq_bind, Option.some_bind, List.append_assoc]

theorem mesh_pushP_eq {m : MeshData} {qd : Quad} (hd : qd.direction < 6) :
    mesh_pushP m qd = some (mesh_push m qd) := by
  unfold mesh_pushP mesh_push
  rw [quad_normalP_eq hd]
  rfl

theorem foldlM_mesh_push_eq :
    ∀ (qs : List Quad) (m0 : MeshData), (∀ qd ∈ qs, qd.direction < 6) →
      List.foldlM mesh_pushP m0 qs = some (qs.foldl mesh_push m0) := by
  intro qs
  induction qs with
  | nil => intro m0 _; rfl
  | cons qd qs ih =>
    intro m0 h
    rw [List.foldlM_cons, mesh_pushP_eq (h qd (List.mem_cons_self _ _))]
    simp only [Option.bind_eq_bind, Option.some_bind, List.foldl_cons]
    exact ih _ (fun q hq => h q (List.mem_cons_of_mem _ hq))

theorem greedy_meshP_eq (c : Chunk) : greedy_meshP c = some (greedy_mesh c) := by
  unfold greedy_meshP greedy_mesh
  rw [greedy_quadsP_eq c]
  simp only [Option.bind_eq_bind, Option.some_bind]
  exact foldlM_mesh_push_eq _ _ (fun qd hq => (greedy_quads_meta c qd hq).1)

/-! ## Fuel irrelevance: each iteration strictly drains the queue -/

theorem merge_pass_go_fuel (c : Chunk) (d : Nat) :
    ∀ fuel fuel' q cursor, q.card < fuel → q.card < fuel' →
      merge_pass_go c d fuel q cursor = merge_pass_go c d fuel' q cursor := by
  intro fuel
  induction fuel with
  | zero => intro fuel' q cursor h _; omega
  | succ m ih =>
    intro fuel' q cursor hc hc'
    cases fuel' with
    | zero => omega
    | succ m' =>
      rw [merge_pass_go, merge_pass_go]
      cases hnf : next_face q c cursor with
      | none => rfl
      | some face =>
        dsimp only
        have hfq := (next_face_some hnf).1
        have hlt := merge_face_card_lt (c := c) (d := d) hfq
        have h1 : (merge_face c d q face).2.card < m := by omega
        have h1' : (merge_face c d q face).2.card < m' := by omega
        cases hmf : (merge_face c d q face).1 with
        | some qd => rw [ih m' _ face h1 h1']
        | none => rw [ih m' _ face h1 h1']

/-! ## Random access into the assembled buffers -/

theorem foldl_mesh_push_vertices (qs : List Quad) :
    ∀ m0 : MeshData, (qs.foldl mesh_push m0).vertices =
      m0.vertices ++ qs.flatMap quad_vertices := by
  induction qs with
  | nil => intro m0; simp
  | cons qd qs ih =>
    intro m0
    rw [List.foldl_cons, ih (mesh_push m0 qd), List.flatMap_cons]
    unfold mesh_push
    dsimp only
    rw [List.append_assoc]

theorem foldl_mesh_push_normals (qs : List Quad) :
    ∀ m0 : MeshData, (qs.foldl mesh_push m0).normals =
      m0.normals ++ qs.flatMap fun qd =>
        [quad_normal qd.direction, quad_normal qd.direction,
         quad_normal qd.direction, quad_normal qd.direction] := by
  induction qs with
  | nil => intro m0; simp
  | cons qd qs ih =>
    intro m0
    rw [List.foldl_cons, ih (mesh_push m0 qd), List.flatMap_cons]
    unfold mesh_push
    dsimp only
    rw [List.append_assoc]

theorem foldl_mesh_push_indices_prefix (qs : List Quad) :
    ∀ m0 : MeshData, ∃ t, (qs.foldl mesh_push m0).indices = m0.indices ++ t := by
  induction qs with
  | nil => intro m0; exact ⟨[], (List.append_nil _).symm⟩
  | cons qd qs ih =>
    intro m0
    obtain ⟨t, ht⟩ := ih (mesh_push m0 qd)
    rw [List.foldl_cons, ht]
    refine ⟨quad_indices qd m0.vertices.length ++ t, ?_⟩
    unfold mesh_push
    dsimp only
    rw [List.append_assoc]

theorem flatMap_quad_vertices_getD (qs : List Quad) :
    ∀ j p pos, j < qs.length → p < 4 → pos = 4 * j + p →
      (qs.flatMap quad_vertices).getD pos ⟨0, 0, 0⟩ =
        (quad_vertices (qs.getD j quadD)).getD p ⟨0, 0, 0⟩ := by
  induction qs with
  | nil =>
    intro j p pos hj
    exact absurd hj (by simp)
  | cons qd qs ih =>
    intro j p pos hj hp hpos
    rw [List.flatMap_cons]
    cases j with
    | zero =>
      have hpp : pos = p := by omega
      subst hpp
      rw [List.getD_append _ _ _ _ (by rw [quad_vertices_length]; omega)]
      rw [List.getD_cons_zero]
    | succ j' =>
      rw [getD_append_at _ _ pos (pos - 4) _ (by rw [quad_vertices_length]; omega)]
      rw [List.getD_cons_succ]
      exact ih j' p (pos - 4) (by simpa using hj) hp (by omega)

theorem flatMap_quad_normals_getD (qs : List Quad) :
    ∀ j p pos, j < qs.length → p < 4 → pos = 4 * j + p →
      (qs.flatMap fun qd =>
        [quad_normal qd.direction, quad_normal qd.direction,
         quad_normal qd.direction, quad_normal qd.direction]).getD pos (0, 0, 0) =
        quad_normal ((qs.getD j quadD).direction) := by
  induction qs with
  | nil =>
    intro j p pos hj
    exact absurd hj (by simp)
  | cons qd qs ih =>
    intro j p pos hj hp hpos
    rw [List.flatMap_cons]
    cases j with
    | zero =>
      have hlt : pos < 4 := by omega
      rw [List.getD_append _ _ _ _ (by simp; omega)]
      rw [List.getD_cons_zero]
      interval_cases pos <;> rfl
    | succ j' =>
      rw [getD_append_at _ _ pos (pos - 4) _ (by simp; omega)]
      rw [List.getD_cons_succ]
      exact ih j' p (pos - 4) (by simpa using hj) hp (by omega)

theorem foldl_mesh_push_indices_getD (qs : List Quad) :
    ∀ (m0 : MeshData) (j i pos : Nat), j < qs.length → i < 6 →
      pos = m0.indices.length + 6 * j + i →
      (qs.foldl mesh_push m0).indices.getD pos 0 =
        (quad_indices (qs.getD j quadD) (m0.vertices.length + 4 * j)).getD i 0 := by
  induction qs with
  | nil =>
    intro m0 j i pos hj
    exact absurd hj (by simp)
  | cons qd qs ih =>
    intro m0 j i pos hj hi hpos
    rw [List.foldl_cons]
    have hlen : (mesh_push m0 qd).indices.length = m0.indices.length + 6 := by
      unfold mesh_push
      dsimp only
      rw [List.length_append, quad_indices_length]
    have hvlen : (mesh_push m0 qd).vertices.length = m0.vertices.length + 4 := by
      unfold mesh_push
      dsimp only
      rw [List.length_append, quad_vertices_length]
    cases j with
    | zero =>
      obtain ⟨t, ht⟩ := foldl_mesh_push_indices_prefix qs (mesh_push m0 qd)
      rw [ht, List.getD_append _ _ _ _ (by omega)]
      unfold mesh_push
      dsimp only
      rw [getD_append_at m0.indices _ pos i _ (by omega)]
      rw [List.getD_cons_zero, Nat.mul_zero, Nat.add_zero]
    | succ j' =>
      rw [ih (mesh_push m0 qd) j' i pos (by simpa using hj) hi (by omega)]
      rw [List.getD_cons_succ, hvlen,
          show m0.vertices.length + 4 + 4 * j' = m0.vertices.length + 4 * (j' + 1) by omega]

/-- A quad with direction 4 whose index base has reached exactly `2^32` gets a
fully wrapped, non-reversed index pattern pointing at vertices `0..3`. -/
theorem quad_indices_wrap_eval (qd : Quad) (h : qd.direction = 4) :
    quad_indices qd 4294967296 = [0, 1, 2, 2, 3, 0] := by
  unfold quad_indices
  dsimp only
  rw [if_neg (by rw [h]; omega)]
  rfl

/-! ## The checkerboard chunk: isolated voxels, one quad per visible face -/

theorem chunkCheckerboard_size (n : Nat) : (chunkCheckerboard n).size = n := rfl

theorem checkerboard_voxel_even {n x y z : Nat} (h : (x + y + z) % 2 = 0) :
    (chunkCheckerboard n).voxels x y z = 1 := by
  show (if (x + y + z) % 2 = 0 then 1 else 0) = 1
  rw [if_pos h]

theorem checkerboard_voxel_odd {n x y z : Nat} (h : (x + y + z) % 2 = 1) :
    (chunkCheckerboard n).voxels x y z = 0 := by
  show (if (x + y + z) % 2 = 0 then 1 else 0) = 0
  rw [if_neg (by omega)]

theorem checkerboard_visible {n d : Nat} {f : Face} (hd : d < 6)
    (heven : (f.x + f.y + f.z) % 2 = 0) :
    face_visible f d (chunkCheckerboard n) = true := by
  unfold face_visible
  interval_cases d
  · show (if f.x = (chunkCheckerboard n).size - 1 then true
      else (chunkCheckerboard n).voxels (f.x + 1) f.y f.z == 0) = true
    by_cases hb : f.x = (chunkCheckerboard n).size - 1
    · rw [if_pos hb]
    · rw [if_neg hb, checkerboard_voxel_odd (by omega)]
      rfl
  · show (if f.x = 0 then true
      else (chunkCheckerboard n).voxels (f.x - 1) f.y f.z == 0) = true
    by_cases hb : f.x = 0
    · rw [if_pos hb]
    · rw [if_neg hb, checkerboard_voxel_odd (by omega)]
      rfl
  · show (if f.y = (chunkCheckerboard n).size - 1 then true
      else (chunkCheckerboard n).voxels f.x (f.y + 1) f.z == 0) = true
    by_cases hb : f.y = (chunkCheckerboard n).size - 1
    · rw [if_pos hb]
    · rw [if_neg hb, checkerboard_voxel_odd (by omega)]
      rfl
  · show (if f.y = 0 then true
      else (chunkCheckerboard n).voxels f.x (f.y - 1) f.z == 0) = true
    by_cases hb : f.y = 0
    · rw [if_pos hb]
    · rw [if_neg hb, checkerboard_voxel_odd (by omega)]
      rfl
  · show (if f.z = (chunkCheckerboard n).size - 1 then true
      else (chunkCheckerboard n).voxels f.x f.y (f.z + 1) == 0) = true
    by_cases hb : f.z = (chunkCheckerboard n).size - 1
    · rw [if_pos hb]
    · rw [if_neg hb, checkerboard_voxel_odd (by omega)]
      rfl
  · show (if f.z = 0 then true
      else (chunkCheckerboard n).voxels f.x f.y (f.z - 1) == 0) = true
    by_cases hb : f.z = 0
    · rw [if_pos hb]
    · rw [if_neg hb, checkerboard_voxel_odd (by omega)]
      rfl

theorem init_queue_checkerboard {n d : Nat} (hd : d < 6) :
    init_queue (chunkCheckerboard n) d =
      (allFaces n).filter (fun f => (f.x + f.y + f.z) % 2 = 0) := by
  ext f
  rw [mem_init_queue, Finset.mem_filter, mem_allFaces]
  unfold inRange
  rw [chunkCheckerboard_size]
  constructor
  · rintro ⟨hin, hsolid, -⟩
    refine ⟨hin, ?_⟩
    by_contra hodd
    exact hsolid (checkerboard_voxel_odd (by omega))
  · rintro ⟨hin, heven⟩
    refine ⟨hin, ?_, checkerboard_visible hd heven⟩
    rw [checkerboard_voxel_even heven]
    exact one_ne_zero

theorem allFaces_card (n : Nat) : (allFaces n).card = n * n * n := by
  unfold allFaces
  rw [Finset.card_image_of_injective _ ?inj]
  case inj =>
    intro p q hpq
    obtain ⟨p1, p2, p3⟩ := p
    obtain ⟨q1, q2, q3⟩ := q
    simp only [Face.mk.injEq] at hpq
    simp only [Prod.mk.injEq]
    exact hpq
  rw [Finset.card_product, Finset.card_product, Finset.card_range]
  ring

theorem card_checkerboard_faces {n : Nat} (hn : n % 2 = 0) :
    ((allFaces n).filter (fun f => (f.x + f.y + f.z) % 2 = 0)).card * 2 =
      n * n * n := by
  have hdisj : Disjoint ((allFaces n).filter (fun f => (f.x + f.y + f.z) % 2 = 0))
      ((allFaces n).filter (fun f => (f.x + f.y + f.z) % 2 = 1)) := by
    rw [Finset.disjoint_left]
    intro a ha hb
    rw [Finset.mem_filter] at ha hb
    omega
  have hunion : (allFaces n).filter (fun f => (f.x + f.y + f.z) % 2 = 0) ∪
      (allFaces n).filter (fun f => (f.x + f.y + f.z) % 2 = 1) = allFaces n := by
    ext f
    rw [Finset.mem_union, Finset.mem_filter, Finset.mem_filter]
    constructor
    · rintro (h | h)
      · exact h.1
      · exact h.1
    · intro h
      rcases Nat.mod_two_eq_zero_or_one (f.x + f.y + f.z) with h2 | h2
      · exact Or.inl ⟨h, h2⟩
      · exact Or.inr ⟨h, h2⟩
  have hcards := Finset.card_union_of_disjoint hdisj
  rw [hunion, allFaces_card] at hcards
  have hbij : ((allFaces n).filter (fun f => (f.x + f.y + f.z) % 2 = 0)).card =
      ((allFaces n).filter (fun f => (f.x + f.y + f.z) % 2 = 1)).card := by
    apply Finset.card_bij (fun f _ =>
      if f.z % 2 = 0 then (⟨f.x, f.y, f.z + 1⟩ : Face) else ⟨f.x, f.y, f.z - 1⟩)
    · intro f hf
      rw [Finset.mem_filter, mem_allFaces] at hf
      obtain ⟨⟨h1, h2, h3⟩, hp⟩ := hf
      by_cases hz : f.z % 2 = 0
      · rw [if_pos hz, Finset.mem_filter, mem_allFaces]
        refine ⟨⟨h1, h2, ?_⟩, ?_⟩ <;> dsimp only <;> omega
      · rw [if_neg hz, Finset.mem_filter, mem_allFaces]
        refine ⟨⟨h1, h2, ?_⟩, ?_⟩ <;> dsimp only <;> omega
    · intro f hf g hg heq
      rw [Finset.mem_filter, mem_allFaces] at hf hg
      by_cases hzf : f.z % 2 = 0 <;> by_cases hzg : g.z % 2 = 0
      · rw [if_pos hzf, if_pos hzg] at heq
        simp only [Face.mk.injEq] at heq
        exact faceExt heq.1 heq.2.1 (by omega)
      · rw [if_pos hzf, if_neg hzg] at heq
        simp only [Face.mk.injEq] at heq
        exact absurd heq.2.2 (by omega)
      · rw [if_neg hzf, if_pos hzg] at heq
        simp only [Face.mk.injEq] at heq
        exact absurd heq.2.2 (by omega)
      · rw [if_neg hzf, if_neg hzg] at heq
        simp only [Face.mk.injEq] at heq
        exact faceExt heq.1 heq.2.1 (by omega)
    · intro g hg
      rw [Finset.mem_filter, mem_allFaces] at hg
      obtain ⟨⟨h1, h2, h3⟩, hp⟩ := hg
      by_cases hz : g.z % 2 = 0
      · refine ⟨⟨g.x, g.y, g.z + 1⟩, ?_, ?_⟩
        · rw [Finset.mem_filter, mem_allFaces]
          refine ⟨⟨h1, h2, ?_⟩, ?_⟩ <;> dsimp only <;> omega
        · rw [if_neg (by dsimp only; omega)]
          exact faceExt rfl rfl (by dsimp only; omega)
      · refine ⟨⟨g.x, g.y, g.z - 1⟩, ?_, ?_⟩
        · rw [Finset.mem_filter, mem_allFaces]
          refine ⟨⟨h1, h2, ?_⟩, ?_⟩ <;> dsimp only <;> omega
        · rw [if_pos (by dsimp only; omega)]
          exact faceExt rfl rfl (by dsimp only; omega)
  omega

theorem checkerboard_quads_unit {n d : Nat} (hd : d < 6) :
    ∀ qd ∈ merge_direction (chunkCheckerboard n) d, qd.width = 1 ∧ qd.height = 1 := by
  intro qd hqd
  obtain ⟨hnodup, hcover, hmeta⟩ := merge_direction_cover (chunkCheckerboard n) d hd
  obtain ⟨hdir, hW, hH, hface⟩ := hmeta qd hqd
  have heven : ∀ g ∈ quad_cells_list qd, (g.x + g.y + g.z) % 2 = 0 := by
    intro g hg
    have hmem : g ∈ ((merge_direction (chunkCheckerboard n) d).flatMap
        quad_cells_list).toFinset :=
      List.mem_toFinset.2 (List.mem_flatMap.2 ⟨qd, hqd, hg⟩)
    rw [hcover, init_queue_checkerboard hd, Finset.mem_filter] at hmem
    exact hmem.2
  constructor
  · by_contra hW2
    have h0 : wcell qd.face (expand_direction qd.direction) 0 0 ∈ quad_cells_list qd :=
      mem_quad_cells_list.2 ⟨0, 0, by omega, by omega, rfl⟩
    have h1 : wcell qd.face (expand_direction qd.direction) 1 0 ∈ quad_cells_list qd :=
      mem_quad_cells_list.2 ⟨1, 0, by omega, by omega, rfl⟩
    have e0 := heven _ h0
    have e1 := heven _ h1
    rw [hdir] at e0 e1
    interval_cases d <;>
      (simp only [wcell, expand_direction] at e0 e1; omega)
  · by_contra hH2
    have h0 : wcell qd.face (expand_direction qd.direction) 0 0 ∈ quad_cells_list qd :=
      mem_quad_cells_list.2 ⟨0, 0, by omega, by omega, rfl⟩
    have h1 : wcell qd.face (expand_direction qd.direction) 0 1 ∈ quad_cells_list qd :=
      mem_quad_cells_list.2 ⟨0, 1, by omega, by omega, rfl⟩
    have e0 := heven _ h0
    have e1 := heven _ h1
    rw [hdir] at e0 e1
    interval_cases d <;>
      (simp only [wcell, expand_direction] at e0 e1; omega)

theorem flatMap_cells_length (qs : List Quad)
    (h1 : ∀ qd ∈ qs, qd.width = 1 ∧ qd.height = 1) :
    (qs.flatMap quad_cells_list).length = qs.length := by
  induction qs with
  | nil => rfl
  | cons qd qs ih =>
    rw [List.flatMap_cons, List.length_append,
        ih (fun q hq => h1 q (List.mem_cons_of_mem _ hq)), List.length_cons]
    have hu := h1 qd (List.mem_cons_self _ _)
    have hql : (quad_cells_list qd).length = 1 := by
      unfold quad_cells_list
      rw [hu.1, hu.2]
      rfl
    omega

theorem merge_direction_checkerboard_length {n d : Nat} (hd : d < 6) :
    (merge_direction (chunkCheckerboard n) d).length =
      ((allFaces n).filter (fun f => (f.x + f.y + f.z) % 2 = 0)).card := by
  obtain ⟨hnodup, hcover, -⟩ := merge_direction_cover (chunkCheckerboard n) d hd
  have hflat := flatMap_cells_length (merge_direction (chunkCheckerboard n) d)
    (checkerboard_quads_unit hd)
  rw [← hflat, ← List.toFinset_card_of_nodup hnodup, hcover,
      init_queue_checkerboard hd]

theorem merge_direction_cb800_length (d : Nat) (hd : d < 6) :
    (merge_direction (chunkCheckerboard 800) d).length = 256000000 := by
  rw [merge_direction_checkerboard_length hd]
  have h := card_checkerboard_faces (n := 800) (by norm_num)
  omega

theorem greedy_quads_cb800_length :
    (greedy_quads (chunkCheckerboard 800)).length = 1536000000 := by
  unfold greedy_quads
  simp only [List.length_append]
  rw [merge_direction_cb800_length 0 (by omega), merge_direction_cb800_length 1 (by omega),
      merge_direction_cb800_length 2 (by omega), merge_direction_cb800_length 3 (by omega),
      merge_direction_cb800_length 4 (by omega), merge_direction_cb800_length 5 (by omega)]

theorem merge_pass_go_step (c : Chunk) (d fuel : Nat) (q : Finset Face)
    (cursor face : Face) (qd : Quad) (q' : Finset Face)
    (hnext : next_face q c cursor = some face)
    (hmf : merge_face c d q face = (some qd, q')) :
    merge_pass_go c d (fuel + 1) q cursor = qd :: merge_pass_go c d fuel q' face := by
  rw [merge_pass_go, hnext]
  dsimp only
  rw [hmf]

theorem merge_direction_cb800_head :
    ∃ rest, merge_direction (chunkCheckerboard 800) 0 =
      (⟨⟨0, 0, 0⟩, 1, 1, 0⟩ : Quad) :: rest := by
  have hin0 : inRange (chunkCheckerboard 800) ⟨0, 0, 0⟩ := by
    unfold inRange
    rw [chunkCheckerboard_size]
    refine ⟨?_, ?_, ?_⟩ <;> (show (0 : Nat) < 800; omega)
  have hvis : face_visible ⟨0, 0, 0⟩ 0 (chunkCheckerboard 800) = true :=
    checkerboard_visible (by omega) (by norm_num)
  have horigin : (⟨0, 0, 0⟩ : Face) ∈ init_queue (chunkCheckerboard 800) 0 := by
    rw [mem_init_queue]
    refine ⟨hin0, ?_, hvis⟩
    rw [checkerboard_voxel_even (by norm_num)]
    exact one_ne_zero
  have hnext : next_face (init_queue (chunkCheckerboard 800) 0) (chunkCheckerboard 800)
      ⟨0, 0, 0⟩ = some ⟨0, 0, 0⟩ :=
    next_face_eq_some horigin hin0 (lexLe_refl _) (fun g _ _ _ => lexLe_zero g)
  obtain ⟨W, H, hW, hH, heq, -⟩ :=
    merge_face_spec (q := init_queue (chunkCheckerboard 800) 0) hvis
  have hpass : merge_direction (chunkCheckerboard 800) 0 =
      (⟨⟨0, 0, 0⟩, W, H, 0⟩ : Quad) ::
        merge_pass_go (chunkCheckerboard 800) 0
          ((init_queue (chunkCheckerboard 800) 0).card)
          (init_queue (chunkCheckerboard 800) 0 \ quad_cells ⟨⟨0, 0, 0⟩, W, H, 0⟩)
          ⟨0, 0, 0⟩ := by
    unfold merge_direction
    exact merge_pass_go_step _ _ _ _ _ _ _ _ hnext heq
  have hWH := checkerboard_quads_unit (n := 800) (show (0 : Nat) < 6 by omega)
    ⟨⟨0, 0, 0⟩, W, H, 0⟩ (by rw [hpass]; exact List.mem_cons_self _ _)
  dsimp only at hWH
  rw [hWH.1, hWH.2] at hpass
  exact ⟨_, hpass⟩

theorem greedy_quads_cb800_getD0 :
    (greedy_quads (chunkCheckerboard 800)).getD 0 quadD =
      (⟨⟨0, 0, 0⟩, 1, 1, 0⟩ : Quad) := by
  obtain ⟨rest, hrest⟩ := merge_direction_cb800_head
  unfold greedy_quads
  simp only [List.append_assoc]
  rw [hrest, List.cons_append, List.getD_cons_zero]

theorem greedy_quads_cb800_getD_dir4 :
    (greedy_quads (chunkCheckerboard 800)).getD 1073741824 quadD ∈
      merge_direction (chunkCheckerboard 800) 4 := by
  have h0 := merge_direction_cb800_length 0 (by omega)
  have h1 := merge_direction_cb800_length 1 (by omega)
  have h2 := merge_direction_cb800_length 2 (by omega)
  have h3 := merge_direction_cb800_length 3 (by omega)
  have h4 := merge_direction_cb800_length 4 (by omega)
  have hsplit : (greedy_quads (chunkCheckerboard 800)).getD 1073741824 quadD =
      (merge_direction (chunkCheckerboard 800) 4).getD 49741824 quadD := by
    unfold greedy_quads
    simp only [List.append_assoc]
    rw [getD_append_at _ _ 1073741824 817741824 _ (by omega),
        getD_append_at _ _ 817741824 561741824 _ (by omega),
        getD_append_at _ _ 561741824 305741824 _ (by omega),
        getD_append_at _ _ 305741824 49741824 _ (by omega),
        List.getD_append _ _ _ _ (by omega)]
  rw [hsplit]
  exact getD_mem _ _ _ (by omega)

/-! ## Claim theorems -/

/-- C1: Coverage completeness.  For every chunk and every direction, decomposing
each quad emitted by the merge pass into its `width × height` unit cells covers
every visible face of a solid voxel exactly once: the list of covered unit
faces has no duplicate, and its underlying set is exactly the set of in-range
faces whose voxel is solid and for which `face_visible` holds — no invisible or
empty-voxel face is ever covered. -/
theorem c1_exact_coverage (c : Chunk) (d : Nat) (hd : d < 6) :
    ((merge_direction c d).flatMap quad_cells_list).Nodup ∧
    ((merge_direction c d).flatMap quad_cells_list).toFinset =
      (allFaces c.size).filter
        (fun f => c.voxels f.x f.y f.z ≠ 0 ∧ face_visible f d c = true) := by
  obtain ⟨h1, h2, -⟩ := merge_direction_cover c d hd
  exact ⟨h1, h2⟩

theorem c1_exact_coverage_witness :
    ((merge_direction chunkSingle2 0).flatMap quad_cells_list).Nodup ∧
    ((merge_direction chunkSingle2 0).flatMap quad_cells_list).toFinset =
      (allFaces chunkSingle2.size).filter
        (fun f => chunkSingle2.voxels f.x f.y f.z ≠ 0 ∧
          face_visible f 0 chunkSingle2 = true) :=
  c1_exact_coverage chunkSingle2 0 (by decide)

/-- C2: Full cube.  For a fully solid chunk of any side `N ≥ 1`, the queue for
each direction is initialized with exactly the `N²` boundary faces of that
direction (`6·N²` in total), and the pass emits exactly 6 quads, one `N × N`
rectangle per direction, so the output has 24 vertices, 24 normals and 36
indices. -/
theorem c2_full_cube (c : Chunk) (hN : 1 ≤ c.size)
    (hsolid : ∀ x y z, x < c.size → y < c.size → z < c.size → c.voxels x y z ≠ 0) :
    (∀ d, d < 6 → (init_queue c d).card = c.size * c.size) ∧
    (∀ f : Face, f ∈ init_queue c 0 ↔ inRange c f ∧ f.x = c.size - 1) ∧
    (∀ f : Face, f ∈ init_queue c 1 ↔ inRange c f ∧ f.x = 0) ∧
    (∀ f : Face, f ∈ init_queue c 2 ↔ inRange c f ∧ f.y = c.size - 1) ∧
    (∀ f : Face, f ∈ init_queue c 3 ↔ inRange c f ∧ f.y = 0) ∧
    (∀ f : Face, f ∈ init_queue c 4 ↔ inRange c f ∧ f.z = c.size - 1) ∧
    (∀ f : Face, f ∈ init_queue c 5 ↔ inRange c f ∧ f.z = 0) ∧
    greedy_quads c =
      [⟨⟨c.size - 1, 0, 0⟩, c.size, c.size, 0⟩, ⟨⟨0, 0, 0⟩, c.size, c.size, 1⟩,
       ⟨⟨0, c.size - 1, 0⟩, c.size, c.size, 2⟩, ⟨⟨0, 0, 0⟩, c.size, c.size, 3⟩,
       ⟨⟨0, 0, c.size - 1⟩, c.size, c.size, 4⟩, ⟨⟨0, 0, 0⟩, c.size, c.size, 5⟩] ∧
    (greedy_mesh c).vertices.length = 24 ∧
    (greedy_mesh c).normals.length = 24 ∧
    (greedy_mesh c).indices.length = 36 := by
  have hq := greedy_quads_full c hN hsolid
  have hlen := foldl_mesh_push_len (greedy_quads c) ⟨[], [], []⟩
  refine ⟨?_, (init_queue_full0 c hN hsolid).1, (init_queue_full1 c hN hsolid).1,
    (init_queue_full2 c hN hsolid).1, (init_queue_full3 c hN hsolid).1,
    (init_queue_full4 c hN hsolid).1, (init_queue_full5 c hN hsolid).1, hq, ?_, ?_, ?_⟩
  · intro d hd
    interval_cases d
    · rw [(init_queue_full0 c hN hsolid).2, cellsRect_card (by omega)]
    · rw [(init_queue_full1 c hN hsolid).2, cellsRect_card (by omega)]
    · rw [(init_queue_full2 c hN hsolid).2, cellsRect_card (by omega)]
    · rw [(init_queue_full3 c hN hsolid).2, cellsRect_card (by omega)]
    · rw [(init_queue_full4 c hN hsolid).2, cellsRect_card (by omega)]
    · rw [(init_queue_full5 c hN hsolid).2, cellsRect_card (by omega)]
  · unfold greedy_mesh
    rw [hlen.1, hq]
    rfl
  · unfold greedy_mesh
    rw [hlen.2.2, hq]
    rfl
  · unfold greedy_mesh
    rw [hlen.2.1, hq]
    rfl

theorem c2_full_cube_witness :
    greedy_quads chunkFull2 =
      [⟨⟨1, 0, 0⟩, 2, 2, 0⟩, ⟨⟨0, 0, 0⟩, 2, 2, 1⟩, ⟨⟨0, 1, 0⟩, 2, 2, 2⟩,
       ⟨⟨0, 0, 0⟩, 2, 2, 3⟩, ⟨⟨0, 0, 1⟩, 2, 2, 4⟩, ⟨⟨0, 0, 0⟩, 2, 2, 5⟩] := by
  have h := c2_full_cube chunkFull2 (by decide) (fun x y z _ _ _ => by simp [chunkFull2])
  exact h.2.2.2.2.2.2.2.1

/-- C3: Monotone queue drain and termination.  Whenever the scan yields a seed,
the seed is in the queue, one loop iteration only removes cells (the resulting
queue is contained in the queue minus the seed) and strictly shrinks it; hence
any two sufficient fuel budgets (more than one iteration per queue cell) give
the same result, i.e. the merge loop terminates for every chunk. -/
theorem c3_monotone_drain (c : Chunk) (d : Nat) (q : Finset Face) (cursor f : Face)
    (hnext : next_face q c cursor = some f) :
    f ∈ q ∧
    (merge_face c d q f).2 ⊆ q.erase f ∧
    (merge_face c d q f).2.card < q.card ∧
    (∀ fuel fuel', q.card < fuel → q.card < fuel' →
      merge_pass_go c d fuel q cursor = merge_pass_go c d fuel' q cursor) := by
  have hfq := (next_face_some hnext).1
  exact ⟨hfq, merge_face_subset_erase, merge_face_card_lt hfq,
    fun fuel fuel' h h' => merge_pass_go_fuel c d fuel fuel' q cursor h h'⟩

theorem c3_monotone_drain_witness :
    (merge_face chunkFull1 0 {⟨0, 0, 0⟩} ⟨0, 0, 0⟩).2.card <
      ({⟨0, 0, 0⟩} : Finset Face).card := by
  have hnext : next_face {⟨0, 0, 0⟩} chunkFull1 ⟨0, 0, 0⟩ = some ⟨0, 0, 0⟩ := by decide
  have h := c3_monotone_drain chunkFull1 0 {⟨0, 0, 0⟩} ⟨0, 0, 0⟩ ⟨0, 0, 0⟩ hnext
  exact h.2.2.1

/-- C7: Seed consumption and defensive re-check.  A seed returned by the scan
is in the queue and is removed from it by the iteration no matter what; if it
fails the `face_visible` re-check, the iteration emits no quad and the queue
changes only by the removal of that seed (so the output buffers, which are
built from the emitted quads, are untouched by that iteration). -/
theorem c7_seed_dequeue (c : Chunk) (d : Nat) (q : Finset Face) (cursor f : Face)
    (hnext : next_face q c cursor = some f) :
    f ∈ q ∧ f ∉ (merge_face c d q f).2 ∧ (merge_face c d q f).2 ⊆ q.erase f ∧
    (face_visible f d c = false → merge_face c d q f = (none, q.erase f)) := by
  have hfq := (next_face_some hnext).1
  refine ⟨hfq, ?_, merge_face_subset_erase, merge_face_not_visible⟩
  intro hmem
  exact absurd (merge_face_subset_erase hmem) (Finset.not_mem_erase f q)

theorem c7_seed_dequeue_witness :
    ⟨0, 0, 0⟩ ∉ (merge_face chunkFull1 0 {⟨0, 0, 0⟩} ⟨0, 0, 0⟩).2 := by
  have hnext : next_face {⟨0, 0, 0⟩} chunkFull1 ⟨0, 0, 0⟩ = some ⟨0, 0, 0⟩ := by decide
  have h := c7_seed_dequeue chunkFull1 0 {⟨0, 0, 0⟩} ⟨0, 0, 0⟩ ⟨0, 0, 0⟩ hnext
  exact h.2.1

/-- C9: Out-of-range queue lookups are not errors.  For every queue state,
`face_exists` returns `false` (rather than failing) when any coordinate is at
or beyond the chunk size, and for in-range coordinates it returns `true`
exactly when the queue holds the face. -/
theorem c9_face_exists_oob (c : Chunk) (q : Finset Face) (f : Face) :
    (¬ inRange c f → face_exists f q c = false) ∧
    (inRange c f → (face_exists f q c = true ↔ f ∈ q)) := by
  constructor
  · intro hn
    cases hb : face_exists f q c
    · rfl
    · exact absurd (face_exists_eq_true.1 hb).1 hn
  · intro hin
    rw [face_exists_eq_true]
    simp [hin]

theorem c9_face_exists_oob_witness :
    face_exists ⟨5, 0, 0⟩ {⟨0, 0, 0⟩} chunkFull2 = false ∧
    (face_exists ⟨0, 0, 0⟩ {⟨0, 0, 0⟩} chunkFull2 = true ↔
      ⟨0, 0, 0⟩ ∈ ({⟨0, 0, 0⟩} : Finset Face)) :=
  ⟨(c9_face_exists_oob chunkFull2 {⟨0, 0, 0⟩} ⟨5, 0, 0⟩).1 (by decide),
   (c9_face_exists_oob chunkFull2 {⟨0, 0, 0⟩} ⟨0, 0, 0⟩).2 (by decide)⟩

/-- C10: Totality of the meshing pass.  The panic-aware embedding — in which
every `invalid direction` panic arm and every out-of-range grid or queue index
returns `none` — computes `some` of the total embedding's result on every
chunk: `greedy_mesh` runs to completion without panicking. -/
theorem c10_no_panic (c : Chunk) : greedy_meshP c = some (greedy_mesh c) :=
  greedy_meshP_eq c

/-- C4 as stated — winding correctness for every chunk — is false for the
program's `u32` index buffer: on the 800³ checkerboard chunk the mesher emits
1 536 000 000 one-cell quads (256 000 000 per direction), hence 6 144 000 000
vertex entries, and the index base of quad `j = 2^30` — a direction-4 quad —
is the wrapped value `(4·2^30) mod 2^32 = 0`: its non-reversed index pattern
dereferences the vertices and the normal of quad 0, a direction-0 quad, and
the first triangle's edge-cross product dotted with that normal evaluates to
`-1`, so the group is not counter-clockwise. -/
theorem c4_wrap_counterexample :
    ¬ ∀ j, 6 * j + 5 < (greedy_mesh (chunkCheckerboard 800)).indices.length →
        tri_ccw (greedy_mesh (chunkCheckerboard 800)) j := by
  intro hall
  have hqlen := greedy_quads_cb800_length
  have hlen := foldl_mesh_push_len (greedy_quads (chunkCheckerboard 800)) ⟨[], [], []⟩
  have hIlen : (greedy_mesh (chunkCheckerboard 800)).indices.length = 9216000000 := by
    unfold greedy_mesh
    rw [hlen.2.1, hqlen]
    simp
  have hj := hall 1073741824 (by rw [hIlen]; norm_num)
  have hdir : ((greedy_quads (chunkCheckerboard 800)).getD 1073741824 quadD).direction
      = 4 :=
    ((merge_direction_cover (chunkCheckerboard 800) 4 (by omega)).2.2 _
      greedy_quads_cb800_getD_dir4).1
  have hbase : (⟨[], [], []⟩ : MeshData).vertices.length + 4 * 1073741824 =
      4294967296 := by simp
  have hI : ∀ i pos, i < 6 → pos = 6 * 1073741824 + i →
      (greedy_mesh (chunkCheckerboard 800)).indices.getD pos 0 =
        [0, 1, 2, 2, 3, 0].getD i 0 := by
    intro i pos hi hpos
    unfold greedy_mesh
    rw [foldl_mesh_push_indices_getD _ ⟨[], [], []⟩ 1073741824 i pos
        (by rw [hqlen]; norm_num) hi (by simp; omega)]
    rw [hbase, quad_indices_wrap_eval _ hdir]
  have hI0 : (greedy_mesh (chunkCheckerboard 800)).indices.getD (6 * 1073741824) 0
      = 0 := by rw [hI 0 (6 * 1073741824) (by omega) (by omega)]; rfl
  have hI1 : (greedy_mesh (chunkCheckerboard 800)).indices.getD (6 * 1073741824 + 1) 0
      = 1 := by rw [hI 1 (6 * 1073741824 + 1) (by omega) (by omega)]; rfl
  have hI2 : (greedy_mesh (chunkCheckerboard 800)).indices.getD (6 * 1073741824 + 2) 0
      = 2 := by rw [hI 2 (6 * 1073741824 + 2) (by omega) (by omega)]; rfl
  have hVb : (greedy_mesh (chunkCheckerboard 800)).vertices =
      (greedy_quads (chunkCheckerboard 800)).flatMap quad_vertices := by
    unfold greedy_mesh
    rw [foldl_mesh_push_vertices]
    show [] ++ _ = _
    exact List.nil_append _
  have hv : ∀ p, p < 4 →
      (greedy_mesh (chunkCheckerboard 800)).vertices.getD p ⟨0, 0, 0⟩ =
        (quad_vertices (⟨⟨0, 0, 0⟩, 1, 1, 0⟩ : Quad)).getD p ⟨0, 0, 0⟩ := by
    intro p hp
    rw [hVb, flatMap_quad_vertices_getD _ 0 p p (by rw [hqlen]; norm_num) hp (by omega),
        greedy_quads_cb800_getD0]
  have hNb : (greedy_mesh (chunkCheckerboard 800)).normals =
      (greedy_quads (chunkCheckerboard 800)).flatMap fun qd =>
        [quad_normal qd.direction, quad_normal qd.direction,
         quad_normal qd.direction, quad_normal qd.direction] := by
    unfold greedy_mesh
    rw [foldl_mesh_push_normals]
    show [] ++ _ = _
    exact List.nil_append _
  have hn0 : (greedy_mesh (chunkCheckerboard 800)).normals.getD 0 (0, 0, 0) =
      quad_normal 0 := by
    rw [hNb, flatMap_quad_normals_getD _ 0 0 0 (by rw [hqlen]; norm_num) (by omega)
        (by omega), greedy_quads_cb800_getD0]
  unfold tri_ccw at hj
  obtain ⟨hj1, -⟩ := hj
  rw [hI0, hI1, hI2, hv 0 (by omega), hv 1 (by omega), hv 2 (by omega), hn0] at hj1
  exact absurd hj1 (by decide)

/-- C4 (amended): Winding correctness below the `u32` wrap threshold.  For
every chunk whose assembled vertex buffer has at most `2^32` entries — so the
wrapping cast `(vertices.len() - 4) as u32` computing each quad's index base
never wraps — every group of 6 indices describes two triangles whose
edge-vector cross products have positive dot product with the per-vertex
normal of the triangle's first vertex: both triangles are wound
counter-clockwise when viewed from outside along the quad's direction (the
pattern is reversed for exactly the directions 0, 2 and 5).  The original
unconditional claim fails: `c4_wrap_counterexample` exhibits a chunk whose
mesh exceeds `2^32` vertices, where a wrapped index base makes a group
reference another quad's geometry with the wrong winding. -/
theorem c4_winding_ccw (c : Chunk) (j : Nat)
    (hsz : (greedy_mesh c).vertices.length ≤ 4294967296)
    (hj : 6 * j + 5 < (greedy_mesh c).indices.length) :
    tri_ccw (greedy_mesh c) j := by
  have hqs := greedy_quads_meta c
  have hlen := foldl_mesh_push_len (greedy_quads c) ⟨[], [], []⟩
  have hV := hlen.1
  simp only [List.length_nil] at hV
  unfold greedy_mesh at hsz
  rw [hV] at hsz
  have haux := greedy_mesh_ccw_aux (greedy_quads c)
    (fun qd hq => ⟨(hqs qd hq).1, (hqs qd hq).2.1, (hqs qd hq).2.2.1⟩)
    ⟨[], [], []⟩ 0 rfl rfl rfl (by omega) (by simp)
    (fun i hi => absurd hi (Nat.not_lt_zero i))
  have hL := hlen.2.1
  simp only [List.length_nil] at hL
  unfold greedy_mesh at hj
  exact haux.2 j (by omega)

theorem c4_winding_ccw_witness : tri_ccw (greedy_mesh chunkFull1) 0 := by
  have hsz : (greedy_mesh chunkFull1).vertices.length ≤ 4294967296 := by decide
  have hj : 6 * 0 + 5 < (greedy_mesh chunkFull1).indices.length := by decide
  exact c4_winding_ccw chunkFull1 0 hsz hj

/-- C5 as stated is false: on the 2×2×2 chunk whose only solid voxel is the
origin, the quad emitted for direction 0 lies in the plane `x = 1`, which is
neither `0` nor the chunk size `2` — an interior exposed face is flush with a
voxel boundary, not with the chunk boundary. -/
theorem c5_flush_counterexample :
    ¬ ∀ qd ∈ greedy_quads chunkSingle2, ∀ v ∈ quad_vertices qd,
        normal_axis_coord qd.direction v = 0 ∨
        normal_axis_coord qd.direction v = chunkSingle2.size := by
  decide

/-- C5 (amended): for every chunk and every emitted quad, the coordinates of
the quad's 4 vertices along the axis normal to its direction are all equal,
and that common value is the seed voxel's coordinate on that axis plus one for
the positive directions (0, 2, 4) — a whole number of voxel units lying
between 0 and the chunk size, flush with the seed voxel's far (positive
directions) or near (negative directions) boundary, but not necessarily `0`
or `N`. -/
theorem c5_flush_amended (c : Chunk) (qd : Quad) (hqd : qd ∈ greedy_quads c) :
    (∀ v ∈ quad_vertices qd,
      normal_axis_coord qd.direction v =
        normal_axis_coord qd.direction qd.face +
          (if qd.direction = 0 ∨ qd.direction = 2 ∨ qd.direction = 4 then 1 else 0)) ∧
    normal_axis_coord qd.direction qd.face +
      (if qd.direction = 0 ∨ qd.direction = 2 ∨ qd.direction = 4 then 1 else 0) ≤
        c.size := by
  obtain ⟨hd, hW, hH, hface⟩ := greedy_quads_meta c qd hqd
  have hin := (mem_init_queue.1 hface).1
  obtain ⟨f, W, H, dd⟩ := qd
  dsimp only at hd hW hH hin ⊢
  obtain ⟨h1, h2, h3⟩ := hin
  interval_cases dd <;>
    exact ⟨by
      intro v hv
      simp only [quad_vertices, List.mem_cons, List.not_mem_nil, or_false] at hv
      rcases hv with rfl | rfl | rfl | rfl <;>
        simp [normal_axis_coord, faceAdd, wcell, expand_direction, quad_extra],
      by simp [normal_axis_coord]; omega⟩

theorem c5_flush_amended_witness :
    normal_axis_coord (⟨⟨0, 0, 0⟩, 1, 1, 0⟩ : Quad).direction
        (⟨⟨0, 0, 0⟩, 1, 1, 0⟩ : Quad).face +
      (if (⟨⟨0, 0, 0⟩, 1, 1, 0⟩ : Quad).direction = 0 ∨
          (⟨⟨0, 0, 0⟩, 1, 1, 0⟩ : Quad).direction = 2 ∨
          (⟨⟨0, 0, 0⟩, 1, 1, 0⟩ : Quad).direction = 4 then 1 else 0) ≤
      chunkSingle2.size := by
  have hmem : (⟨⟨0, 0, 0⟩, 1, 1, 0⟩ : Quad) ∈ greedy_quads chunkSingle2 := by decide
  exact (c5_flush_amended chunkSingle2 ⟨⟨0, 0, 0⟩, 1, 1, 0⟩ hmem).2

/-- C6: Height expansion is all-or-nothing by whole rows.  A candidate row
qualifies (`can_extend_row`) precisely when every one of its `width` cells is
in range, still queued and visible; the height loop consumes exactly the cells
of the consecutive qualifying rows — each qualifying row is removed whole,
rows with any disqualifying cell are left untouched — and it stops at the
first height whose row does not qualify against the remaining queue. -/
theorem c6_row_all_or_nothing (c : Chunk) (d : Nat) (f : Face) (q : Finset Face)
    (W h0 : Nat) (hW : 0 < W) :
    (∀ h (q' : Finset Face), can_extend_row h W d f q' c = true ↔
      ∀ k, k < W →
        inRange c (wcell f (expand_direction d) k h) ∧
        wcell f (expand_direction d) k h ∈ q' ∧
        face_visible (wcell f (expand_direction d) k h) d c = true) ∧
    h0 ≤ (expand_height c d (expand_direction d) f W q h0).1 ∧
    (expand_height c d (expand_direction d) f W q h0).2 =
      q \ cellsRect f (expand_direction d) 0 W h0
        (expand_height c d (expand_direction d) f W q h0).1 ∧
    (∀ h, h0 ≤ h → h < (expand_height c d (expand_direction d) f W q h0).1 →
      ∀ k, k < W →
        wcell f (expand_direction d) k h ∈ q ∧
        inRange c (wcell f (expand_direction d) k h) ∧
        face_visible (wcell f (expand_direction d) k h) d c = true) ∧
    can_extend_row (expand_height c d (expand_direction d) f W q h0).1 W d f
      (expand_height c d (expand_direction d) f W q h0).2 c = false := by
  obtain ⟨H, q', heq, hle, hq', hcells, hstop⟩ := expand_height_spec c d f hW q h0
  rw [heq]
  exact ⟨fun h q' => can_extend_row_iff, hle, hq', hcells, hstop⟩

theorem c6_row_all_or_nothing_witness :
    can_extend_row
      (expand_height chunkFull1 0 (expand_direction 0) ⟨0, 0, 0⟩ 1 {⟨0, 0, 0⟩} 1).1 1 0
      ⟨0, 0, 0⟩
      (expand_height chunkFull1 0 (expand_direction 0) ⟨0, 0, 0⟩ 1 {⟨0, 0, 0⟩} 1).2
      chunkFull1 = false := by
  have h := c6_row_all_or_nothing chunkFull1 0 ⟨0, 0, 0⟩ {⟨0, 0, 0⟩} 1 1 (by decide)
  exact h.2.2.2.2

/-- C8: Visibility predicate.  For every chunk, every in-range coordinate and
every direction below 6, `face_visible` returns `true` exactly when the
outward neighbour does not exist (the face lies on the grid boundary in the
direction's outward sense) or the neighbouring cell holds material 0.  The
embedding is a pure function of the grid, so it cannot mutate it. -/
theorem c8_visibility_policy (c : Chunk) (f : Face) (d : Nat) (hd : d < 6)
    (hin : inRange c f) :
    face_visible f d c = true ↔
      spec_neighbor f d c.size = none ∨
      ∃ g, spec_neighbor f d c.size = some g ∧ c.voxels g.x g.y g.z = 0 := by
  obtain ⟨h1, h2, h3⟩ := hin
  interval_cases d
  · by_cases hb : f.x = c.size - 1
    · have hsn : spec_neighbor f 0 c.size = none := by
        show (if f.x + 1 < c.size then some (⟨f.x + 1, f.y, f.z⟩ : Face) else none) = none
        rw [if_neg (show ¬ (f.x + 1 < c.size) by omega)]
      simp [face_visible, hb, hsn]
    · have hsn : spec_neighbor f 0 c.size = some ⟨f.x + 1, f.y, f.z⟩ := by
        show (if f.x + 1 < c.size then some (⟨f.x + 1, f.y, f.z⟩ : Face) else none) = _
        rw [if_pos (show f.x + 1 < c.size by omega)]
      simp [face_visible, hb, hsn, beq_iff_eq]
  · by_cases hb : f.x = 0
    · have hsn : spec_neighbor f 1 c.size = none := by
        show (if f.x = 0 then none else some (⟨f.x - 1, f.y, f.z⟩ : Face)) = none
        rw [if_pos hb]
      simp [face_visible, hb, hsn]
    · have hsn : spec_neighbor f 1 c.size = some ⟨f.x - 1, f.y, f.z⟩ := by
        show (if f.x = 0 then none else some (⟨f.x - 1, f.y, f.z⟩ : Face)) = _
        rw [if_neg hb]
      simp [face_visible, hb, hsn, beq_iff_eq]
  · by_cases hb : f.y = c.size - 1
    · have hsn : spec_neighbor f 2 c.size = none := by
        show (if f.y + 1 < c.size then some (⟨f.x, f.y + 1, f.z⟩ : Face) else none) = none
        rw [if_neg (show ¬ (f.y + 1 < c.size) by omega)]
      simp [face_visible, hb, hsn]
    · have hsn : spec_neighbor f 2 c.size = some ⟨f.x, f.y + 1, f.z⟩ := by
        show (if f.y + 1 < c.size then some (⟨f.x, f.y + 1, f.z⟩ : Face) else none) = _
        rw [if_pos (show f.y + 1 < c.size by omega)]
      simp [face_visible, hb, hsn, beq_iff_eq]
  · by_cases hb : f.y = 0
    · have hsn : spec_neighbor f 3 c.size = none := by
        show (if f.y = 0 then none else some (⟨f.x, f.y - 1, f.z⟩ : Face)) = none
        rw [if_pos hb]
      simp [face_visible, hb, hsn]
    · have hsn : spec_neighbor f 3 c.size = some ⟨f.x, f.y - 1, f.z⟩ := by
        show (if f.y = 0 then none else some (⟨f.x, f.y - 1, f.z⟩ : Face)) = _
        rw [if_neg hb]
      simp [face_visible, hb, hsn, beq_iff_eq]
  · by_cases hb : f.z = c.size - 1
    · have hsn : spec_neighbor f 4 c.size = none := by
        show (if f.z + 1 < c.size then some (⟨f.x, f.y, f.z + 1⟩ : Face) else none) = none
        rw [if_neg (show ¬ (f.z + 1 < c.size) by omega)]
      simp [face_visible, hb, hsn]
    · have hsn : spec_neighbor f 4 c.size = some ⟨f.x, f.y, f.z + 1⟩ := by
        show (if f.z + 1 < c.size then some (⟨f.x, f.y, f.z + 1⟩ : Face) else none) = _
        rw [if_pos (show f.z + 1 < c.size by omega)]
      simp [face_visible, hb, hsn, beq_iff_eq]
  · by_cases hb : f.z = 0
    · have hsn : spec_neighbor f 5 c.size = none := by
        show (if f.z = 0 then none else some (⟨f.x, f.y, f.z - 1⟩ : Face)) = none
        rw [if_pos hb]
      simp [face_visible, hb, hsn]
    · have hsn : spec_neighbor f 5 c.size = some ⟨f.x, f.y, f.z - 1⟩ := by
        show (if f.z = 0 then none else some (⟨f.x, f.y, f.z - 1⟩ : Face)) = _
        rw [if_neg hb]
      simp [face_visible, hb, hsn, beq_iff_eq]

theorem c8_visibility_policy_witness :
    face_visible ⟨0, 0, 0⟩ 1 chunkSingle2 = true ↔
      spec_neighbor ⟨0, 0, 0⟩ 1 chunkSingle2.size = none ∨
      ∃ g, spec_neighbor ⟨0, 0, 0⟩ 1 chunkSingle2.size = some g ∧
        chunkSingle2.voxels g.x g.y g.z = 0 :=
  c8_visibility_policy chunkSingle2 ⟨0, 0, 0⟩ 1 (by decide) (by decide)

end VoxelGame
